import Mathlib

/-!
Shallow embedding of the PII candidate resolution engine
(`src/services/pii-scanner.service.ts`, `src/services/pii-resolution.service.ts`,
`src/services/file.service.ts`) together with proofs about its behaviour.

Strings are modelled with Lean `String`; the JavaScript `toLowerCase`/`trim`
operations are modelled at the character level (ASCII case folding, whitespace
trimming), which matches the data these services handle.  JavaScript `Map`
objects are modelled as insertion-ordered association lists with the exact
`Map.get` / `Map.set` semantics (update in place keeps the position of the key;
a new key is appended at the end).
-/

namespace Pareto

/-- Character-level model of the JavaScript `toLowerCase` call. -/
def jsToLower (s : String) : String :=
  String.mk (s.data.map Char.toLower)

/-- Character-level model of the JavaScript `trim` call: drop whitespace at
both ends. -/
def jsTrim (s : String) : String :=
  String.mk ((s.data.dropWhile Char.isWhitespace).reverse.dropWhile Char.isWhitespace).reverse

/-- `PIIResolutionService.normalizeValue`: `value.trim().toLowerCase()`. -/
def normalizeValue (s : String) : String :=
  jsToLower (jsTrim s)

/-- Whether `pat` occurs at the start of `hay` (helper for the substring
test used by `String.prototype.includes`). -/
def startsWithChars : List Char → List Char → Bool
  | [], _ => true
  | _ :: _, [] => false
  | p :: ps, h :: hs => p == h && startsWithChars ps hs

/-- Whether `pat` occurs somewhere inside `hay`; model of the JavaScript
`hay.includes(pat)` test. -/
def hasSubChars (pat : List Char) : List Char → Bool
  | [] => startsWithChars pat []
  | h :: hs => startsWithChars pat (h :: hs) || hasSubChars pat hs

/-- Model of `hay.includes(pat)` on strings. -/
def jsIncludes (hay pat : String) : Bool :=
  hasSubChars pat.data hay.data

/-- Lexicographic comparison of character lists, mirroring the UTF-16
code-unit comparison performed by the default JavaScript array sort. -/
def charListLe : List Char → List Char → Bool
  | [], _ => true
  | _ :: _, [] => false
  | a :: as, b :: bs => if a = b then charListLe as bs else decide (a < b)

/-- String comparison used to model the default JavaScript sort. -/
def strLe (a b : String) : Bool :=
  charListLe a.data b.data

/-- Insert a string into a sorted list (insertion sort step). -/
def insertSorted (x : String) : List String → List String
  | [] => [x]
  | y :: ys => if strLe x y then x :: y :: ys else y :: insertSorted x ys

/-- Model of the default JavaScript `Array.prototype.sort()` on a list of
distinct strings. -/
def sortStrings (l : List String) : List String :=
  l.foldr insertSorted []

/-! ## Data model (`extraction-reader.service.ts`, zod schemas) -/

/-- The `confidence` enum of a PII candidate; also used for conflict
severities, which range over the same three literals. -/
inductive Confidence where
  | high
  | medium
  | low
deriving DecidableEq, Repr

/-- `PIICandidate` from the zod schema. -/
structure PIICandidate where
  value : String
  pii_type : String
  confidence : Confidence
  context : Option String
deriving DecidableEq, Repr

/-- `IndividualRecord` from the zod schema (one per source document). -/
structure IndividualRecord where
  file_name : String
  file_path : String
  name : Option String
  address : Option String
  phone : Option String
  pii_candidates : List PIICandidate
deriving DecidableEq, Repr

/-- `ExtractionResults` from the zod schema. -/
structure ExtractionResults where
  timestamp : String
  total_files_processed : Nat
  total_pii_found : Nat
  files : List IndividualRecord
deriving DecidableEq, Repr

/-- `PIIOccurrence`: a candidate tagged with its source document. -/
structure PIIOccurrence where
  candidate : PIICandidate
  file_name : String
  file_path : String
deriving DecidableEq, Repr

/-! ## JavaScript `Map` model -/

/-- `Map.prototype.get`: the value stored at the first (and, for the maps
built here, only) entry with the given key. -/
def mapGet (m : List (String × α)) (k : String) : Option α :=
  match m with
  | [] => none
  | (k1, v) :: rest => if k1 = k then some v else mapGet rest k

/-- `Map.prototype.set`: replace in place if the key is present, append a
new entry otherwise. -/
def mapSet (m : List (String × α)) (k : String) (v : α) : List (String × α) :=
  match m with
  | [] => [(k, v)]
  | (k1, v1) :: rest => if k1 = k then (k, v) :: rest else (k1, v1) :: mapSet rest k v

/-- The insertion-ordered key list of a map. -/
def mapKeys (m : List (String × α)) : List String :=
  m.map Prod.fst

theorem mapGet_nil (k : String) : mapGet ([] : List (String × α)) k = none := rfl

theorem mapGet_cons (k1 : String) (v : α) (rest : List (String × α)) (k : String) :
    mapGet ((k1, v) :: rest) k = if k1 = k then some v else mapGet rest k := rfl

theorem mapGet_mapSet_self (m : List (String × α)) (k : String) (v : α) :
    mapGet (mapSet m k v) k = some v := by
  induction m with
  | nil => simp [mapGet, mapSet]
  | cons p rest ih =>
    obtain ⟨k1, v1⟩ := p
    by_cases h : k1 = k
    · simp [mapGet, mapSet, h]
    · simp [mapGet, mapSet, h, ih]

theorem mapGet_mapSet_ne (m : List (String × α)) (k k' : String) (v : α) (h : k ≠ k') :
    mapGet (mapSet m k v) k' = mapGet m k' := by
  induction m with
  | nil => simp [mapGet, mapSet, h]
  | cons p rest ih =>
    obtain ⟨k1, v1⟩ := p
    by_cases h1 : k1 = k
    · subst h1
      simp [mapGet, mapSet, h]
    · simp only [mapSet, if_neg h1]
      by_cases h2 : k1 = k'
      · simp [mapGet, h2]
      · simp [mapGet, h2, ih]

theorem mapKeys_mapSet_of_isSome (m : List (String × α)) (k : String) (v : α)
    (h : (mapGet m k).isSome) : mapKeys (mapSet m k v) = mapKeys m := by
  induction m with
  | nil => simp [mapGet] at h
  | cons p rest ih =>
    obtain ⟨k1, v1⟩ := p
    by_cases h1 : k1 = k
    · simp [mapKeys, mapSet, h1]
    · simp only [mapGet, if_neg h1] at h
      have hrec := ih h
      simp only [mapKeys] at hrec
      simp [mapKeys, mapSet, h1, hrec]

theorem mapKeys_mapSet_of_isNone (m : List (String × α)) (k : String) (v : α)
    (h : mapGet m k = none) : mapKeys (mapSet m k v) = mapKeys m ++ [k] := by
  induction m with
  | nil => simp [mapKeys, mapSet]
  | cons p rest ih =>
    obtain ⟨k1, v1⟩ := p
    by_cases h1 : k1 = k
    · simp [mapGet, h1] at h
    · simp only [mapGet, if_neg h1] at h
      have hrec := ih h
      simp only [mapKeys] at hrec
      simp [mapKeys, mapSet, h1, hrec]

theorem mapGet_isSome_iff_mem_mapKeys (m : List (String × α)) (k : String) :
    (mapGet m k).isSome ↔ k ∈ mapKeys m := by
  induction m with
  | nil => simp [mapGet, mapKeys]
  | cons p rest ih =>
    obtain ⟨k1, v1⟩ := p
    by_cases h1 : k1 = k
    · simp [mapGet, mapKeys, h1]
    · simp [mapGet, mapKeys, h1, ih, Ne.symm h1]

theorem mapGet_eq_none_iff_not_mem_mapKeys (m : List (String × α)) (k : String) :
    mapGet m k = none ↔ k ∉ mapKeys m := by
  rw [← mapGet_isSome_iff_mem_mapKeys]
  cases mapGet m k <;> simp

/-- Extensionality for the association-list maps built by the services: two
maps with the same (duplicate-free) key sequence and the same lookups are
equal. -/
theorem map_ext (m1 m2 : List (String × α)) (hkeys : mapKeys m1 = mapKeys m2)
    (hnd : (mapKeys m1).Nodup) (hget : ∀ k, mapGet m1 k = mapGet m2 k) :
    m1 = m2 := by
  induction m1 generalizing m2 with
  | nil =>
    cases m2 with
    | nil => rfl
    | cons p rest => simp [mapKeys] at hkeys
  | cons p rest ih =>
    obtain ⟨k1, v1⟩ := p
    cases m2 with
    | nil => simp [mapKeys] at hkeys
    | cons q rest2 =>
      obtain ⟨k2, v2⟩ := q
      simp only [mapKeys, List.map_cons, List.cons.injEq] at hkeys
      obtain ⟨hk, hrest⟩ := hkeys
      subst hk
      have hv : some v1 = some v2 := by
        have := hget k1
        simpa [mapGet] using this
      have hvv : v1 = v2 := by injection hv
      subst hvv
      simp only [mapKeys, List.map_cons, List.nodup_cons] at hnd
      obtain ⟨hk1, hndrest⟩ := hnd
      have hgetrest : ∀ k, mapGet rest k = mapGet rest2 k := by
        intro k
        by_cases hkk : k1 = k
        · subst hkk
          have h1 : mapGet rest k1 = none := by
            rw [mapGet_eq_none_iff_not_mem_mapKeys]
            exact hk1
          have h2 : mapGet rest2 k1 = none := by
            rw [mapGet_eq_none_iff_not_mem_mapKeys]
            simp only [mapKeys]
            rw [← hrest]
            exact hk1
          rw [h1, h2]
        · have := hget k
          simpa [mapGet, hkk] using this
      rw [ih rest2 hrest hndrest hgetrest]

/-! ## Chunk deduplication (`pii-scanner.service.ts`, `scanFileForPII`) -/

/-- The per-chunk extraction payload returned by the oracle
(`PIIExtractionSchema`). -/
structure PIIExtractionResult where
  name : Option String
  address : Option String
  phone : Option String
  pii_candidates : List PIICandidate
deriving DecidableEq, Repr

/-- The deduplication key: `candidate.value.toLowerCase() + "_" + candidate.pii_type`. -/
def dedupKey (c : PIICandidate) : String :=
  jsToLower c.value ++ "_" ++ c.pii_type

/-- One step of the scanner deduplication loop:
`if (!uniquePII.has(key) || candidate.confidence === high) uniquePII.set(key, candidate)`. -/
def dedupStep (m : List (String × PIICandidate)) (c : PIICandidate) :
    List (String × PIICandidate) :=
  if (mapGet m (dedupKey c)).isNone || c.confidence == Confidence.high then
    mapSet m (dedupKey c) c
  else m

/-- Folding the deduplication step over a flat candidate list. -/
def dedupCandidates (l : List PIICandidate) : List (String × PIICandidate) :=
  l.foldl dedupStep []

/-- The full per-document deduplication pass of `scanFileForPII`: iterate the
chunk results in order, folding every chunk candidate into the shared map. -/
def dedupChunks (results : List PIIExtractionResult) : List (String × PIICandidate) :=
  results.foldl (fun m r => r.pii_candidates.foldl dedupStep m) []

theorem foldl_dedupChunks (results : List PIIExtractionResult)
    (m : List (String × PIICandidate)) :
    results.foldl (fun m r => r.pii_candidates.foldl dedupStep m) m
      = (results.flatMap PIIExtractionResult.pii_candidates).foldl dedupStep m := by
  induction results generalizing m with
  | nil => simp
  | cons r rest ih => simp [List.foldl_append, ih]

theorem dedupChunks_eq_dedupCandidates (results : List PIIExtractionResult) :
    dedupChunks results = dedupCandidates (results.flatMap PIIExtractionResult.pii_candidates) := by
  unfold dedupChunks dedupCandidates
  exact foldl_dedupChunks results []

/-- The last high-confidence candidate of `l` whose key is `k`. -/
def lastHighAt (k : String) : List PIICandidate → Option PIICandidate
  | [] => none
  | c :: rest =>
    match lastHighAt k rest with
    | some d => some d
    | none => if dedupKey c = k ∧ c.confidence = Confidence.high then some c else none

/-- The first candidate of `l` whose key is `k`. -/
def firstAt (k : String) : List PIICandidate → Option PIICandidate
  | [] => none
  | c :: rest => if dedupKey c = k then some c else firstAt k rest

/-- Characterization of the deduplication fold at one key: the final entry is
the last high-confidence candidate for that key if one exists, otherwise the
entry the accumulator already held, otherwise the first candidate for the key. -/
theorem mapGet_foldl_dedupStep (l : List PIICandidate) (m : List (String × PIICandidate))
    (k : String) :
    mapGet (l.foldl dedupStep m) k =
      match lastHighAt k l with
      | some d => some d
      | none =>
        match mapGet m k with
        | some v => some v
        | none => firstAt k l := by
  induction l generalizing m with
  | nil => cases h : mapGet m k <;> simp [lastHighAt, firstAt, h]
  | cons c rest ih =>
    simp only [List.foldl_cons]
    rw [ih]
    by_cases hk : dedupKey c = k
    · by_cases hh : c.confidence = Confidence.high
      · have hstep : dedupStep m c = mapSet m (dedupKey c) c := by
          simp [dedupStep, hh]
        rw [hstep, hk, mapGet_mapSet_self]
        cases hlast : lastHighAt k rest with
        | some d => simp [lastHighAt, hlast]
        | none => simp [lastHighAt, hlast, hk, hh]
      · cases hget : mapGet m k with
        | none =>
          have hstep : dedupStep m c = mapSet m (dedupKey c) c := by
            simp [dedupStep, hk, hget]
          rw [hstep, hk, mapGet_mapSet_self]
          cases hlast : lastHighAt k rest with
          | some d => simp [lastHighAt, hlast]
          | none => simp [lastHighAt, hlast, hk, hh, firstAt, hget]
        | some v =>
          have hstep : dedupStep m c = m := by
            have : (mapGet m (dedupKey c)).isNone = false := by
              rw [hk, hget]; rfl
            simp [dedupStep, this, hh]
          rw [hstep]
          cases hlast : lastHighAt k rest with
          | some d => simp [lastHighAt, hlast]
          | none => simp [lastHighAt, hlast, hk, hh, hget]
    · have hget : mapGet (dedupStep m c) k = mapGet m k := by
        unfold dedupStep
        by_cases hcond : (mapGet m (dedupKey c)).isNone || c.confidence == Confidence.high
        · simp only [hcond, if_true]
          exact mapGet_mapSet_ne m (dedupKey c) k c hk
        · simp [hcond]
      rw [hget]
      have hlast : lastHighAt k (c :: rest) = lastHighAt k rest := by
        cases hl : lastHighAt k rest with
        | some d => simp [lastHighAt, hl]
        | none => simp [lastHighAt, hl, hk]
      have hfirst : firstAt k (c :: rest) = firstAt k rest := by
        simp [firstAt, hk]
      rw [hlast, hfirst]

/-- Keys only ever get added by the deduplication fold. -/
theorem mapGet_foldl_dedupStep_isSome_mono (l : List PIICandidate)
    (m : List (String × PIICandidate)) (k : String) (h : (mapGet m k).isSome) :
    (mapGet (l.foldl dedupStep m) k).isSome := by
  rw [mapGet_foldl_dedupStep]
  cases hlast : lastHighAt k l with
  | some d => simp
  | none =>
    cases hget : mapGet m k with
    | none => rw [hget] at h; simp at h
    | some v => simp

/-- After the fold, the key of every processed candidate is present. -/
theorem mapGet_foldl_dedupStep_mem (l : List PIICandidate) (m : List (String × PIICandidate))
    (c : PIICandidate) (hc : c ∈ l) : (mapGet (l.foldl dedupStep m) (dedupKey c)).isSome := by
  induction l generalizing m with
  | nil => cases hc
  | cons a rest ih =>
    simp only [List.foldl_cons]
    rcases List.mem_cons.mp hc with h | h
    · subst h
      apply mapGet_foldl_dedupStep_isSome_mono
      unfold dedupStep
      by_cases hcond : (mapGet m (dedupKey c)).isNone || c.confidence == Confidence.high
      · simp only [hcond, if_true]
        rw [mapGet_mapSet_self]; rfl
      · have : ¬ (mapGet m (dedupKey c)).isNone := by
          intro hnone
          simp [hnone] at hcond
        simp only [hcond, if_neg, Bool.not_eq_true]
        cases hget : mapGet m (dedupKey c) with
        | none => rw [hget] at this; simp at this
        | some v => simp
    · exact ih _ h

/-- If every candidate key is already present, the fold adds no keys. -/
theorem mapKeys_foldl_dedupStep (l : List PIICandidate) (m : List (String × PIICandidate))
    (h : ∀ c ∈ l, (mapGet m (dedupKey c)).isSome) :
    mapKeys (l.foldl dedupStep m) = mapKeys m := by
  induction l generalizing m with
  | nil => rfl
  | cons c rest ih =>
    simp only [List.foldl_cons]
    have hstep : mapKeys (dedupStep m c) = mapKeys m := by
      unfold dedupStep
      by_cases hcond : (mapGet m (dedupKey c)).isNone || c.confidence == Confidence.high
      · simp only [hcond, if_true]
        exact mapKeys_mapSet_of_isSome m (dedupKey c) c (h c (List.mem_cons_self c rest))
      · simp [hcond]
    rw [ih (dedupStep m c) ?_, hstep]
    intro a ha
    have := h a (List.mem_cons_of_mem c ha)
    rw [mapGet_isSome_iff_mem_mapKeys] at this ⊢
    rw [hstep]
    exact this

/-- The deduplication fold keeps the key sequence duplicate-free. -/
theorem mapKeys_nodup_foldl_dedupStep (l : List PIICandidate)
    (m : List (String × PIICandidate)) (h : (mapKeys m).Nodup) :
    (mapKeys (l.foldl dedupStep m)).Nodup := by
  induction l generalizing m with
  | nil => exact h
  | cons c rest ih =>
    simp only [List.foldl_cons]
    apply ih
    unfold dedupStep
    by_cases hcond : (mapGet m (dedupKey c)).isNone || c.confidence == Confidence.high
    · simp only [hcond, if_true]
      cases hget : mapGet m (dedupKey c) with
      | none =>
        rw [mapKeys_mapSet_of_isNone m (dedupKey c) c hget]
        have hnotmem : dedupKey c ∉ mapKeys m := by
          rw [← mapGet_eq_none_iff_not_mem_mapKeys]
          exact hget
        simp [List.nodup_append, h, hnotmem]
      | some v =>
        rw [mapKeys_mapSet_of_isSome m (dedupKey c) c (by rw [hget]; rfl)]
        exact h
    · simp [hcond, h]

/-- Replaying a candidate list over its own deduplication result changes
nothing. -/
theorem foldl_dedupStep_self (l : List PIICandidate) :
    l.foldl dedupStep (dedupCandidates l) = dedupCandidates l := by
  have hnd : (mapKeys (dedupCandidates l)).Nodup := by
    apply mapKeys_nodup_foldl_dedupStep
    simp [mapKeys]
  apply map_ext
  · apply mapKeys_foldl_dedupStep
    intro c hc
    exact mapGet_foldl_dedupStep_mem l [] c hc
  · apply mapKeys_nodup_foldl_dedupStep
    exact hnd
  · intro k
    rw [mapGet_foldl_dedupStep l (dedupCandidates l) k]
    have hbase : mapGet (dedupCandidates l) k =
        match lastHighAt k l with
        | some d => some d
        | none =>
          match mapGet ([] : List (String × PIICandidate)) k with
          | some v => some v
          | none => firstAt k l :=
      mapGet_foldl_dedupStep l [] k
    cases hlast : lastHighAt k l with
    | some d =>
      rw [hlast] at hbase
      simp only [hbase]
    | none =>
      rw [hlast] at hbase
      simp only [mapGet_nil] at hbase
      rw [hbase]
      cases hfirst : firstAt k l <;> simp

/-- A chunk extraction result holding exactly one candidate. -/
def singleChunk (c : PIICandidate) : PIIExtractionResult :=
  { name := none, address := none, phone := none, pii_candidates := [c] }

/-- C5: in chunk deduplication, for candidates sharing the same
`lowercase(value) + "_" + pii_type` key, a high-confidence arrival always
replaces the stored entry, a medium/low arrival never replaces an existing
entry, and hence a low and a high candidate with the same key deduplicate to
the high one in either arrival order. -/
theorem scanner_dedup_high_wins (c1 c2 : PIICandidate)
    (hkey : dedupKey c1 = dedupKey c2)
    (h1 : c1.confidence = Confidence.low)
    (h2 : c2.confidence = Confidence.high) :
    (∀ (m : List (String × PIICandidate)) (c : PIICandidate),
        c.confidence = Confidence.high →
          mapGet (dedupStep m c) (dedupKey c) = some c) ∧
    (∀ (m : List (String × PIICandidate)) (c : PIICandidate),
        c.confidence ≠ Confidence.high → (mapGet m (dedupKey c)).isSome →
          dedupStep m c = m) ∧
    mapGet (dedupChunks [singleChunk c1, singleChunk c2]) (dedupKey c1) = some c2 ∧
    mapGet (dedupChunks [singleChunk c2, singleChunk c1]) (dedupKey c1) = some c2 := by
  refine ⟨?_, ?_, ?_, ?_⟩
  · intro m c hc
    unfold dedupStep
    simp only [hc]
    simp [mapGet_mapSet_self]
  · intro m c hc hsome
    unfold dedupStep
    have h1 : (mapGet m (dedupKey c)).isNone = false := by
      cases hm : mapGet m (dedupKey c) with
      | none => rw [hm] at hsome; simp at hsome
      | some v => rfl
    have h2 : (c.confidence == Confidence.high) = false := by
      simp [hc]
    simp [h1, h2]
  · show mapGet (dedupChunks [singleChunk c1, singleChunk c2]) (dedupKey c1) = some c2
    rw [dedupChunks_eq_dedupCandidates]
    show mapGet ([c1, c2].foldl dedupStep []) (dedupKey c1) = some c2
    have hs1 : dedupStep [] c1 = [(dedupKey c1, c1)] := by
      simp [dedupStep, mapGet, mapSet]
    have hs2 : dedupStep [(dedupKey c1, c1)] c2 = [(dedupKey c2, c2)] := by
      simp only [dedupStep, h2]
      simp [mapSet, hkey]
    simp only [List.foldl_cons, List.foldl_nil, hs1, hs2]
    simp [mapGet, hkey]
  · show mapGet (dedupChunks [singleChunk c2, singleChunk c1]) (dedupKey c1) = some c2
    rw [dedupChunks_eq_dedupCandidates]
    show mapGet ([c2, c1].foldl dedupStep []) (dedupKey c1) = some c2
    have hs1 : dedupStep [] c2 = [(dedupKey c2, c2)] := by
      simp [dedupStep, mapGet, mapSet]
    have hs2 : dedupStep [(dedupKey c2, c2)] c1 = [(dedupKey c2, c2)] := by
      have hget : mapGet [(dedupKey c2, c2)] (dedupKey c1) = some c2 := by
        simp [mapGet, hkey]
      have hc1 : (c1.confidence == Confidence.high) = false := by
        simp [h1]
      simp [dedupStep, hget, hc1]
    simp only [List.foldl_cons, List.foldl_nil, hs1, hs2]
    simp [mapGet, hkey]

/-- A low-confidence sample candidate from the spec example. -/
def sampleLowSSN : PIICandidate :=
  { value := "X", pii_type := "SSN", confidence := Confidence.low, context := none }

/-- A high-confidence sample candidate from the spec example. -/
def sampleHighSSN : PIICandidate :=
  { value := "X", pii_type := "SSN", confidence := Confidence.high, context := none }

/-- Witness for C5: the spec example, evaluated in both arrival orders. -/
theorem scanner_dedup_high_wins_witness :
    mapGet (dedupChunks [singleChunk sampleLowSSN, singleChunk sampleHighSSN])
        (dedupKey sampleLowSSN) = some sampleHighSSN ∧
    mapGet (dedupChunks [singleChunk sampleHighSSN, singleChunk sampleLowSSN])
        (dedupKey sampleLowSSN) = some sampleHighSSN :=
  ⟨(scanner_dedup_high_wins sampleLowSSN sampleHighSSN rfl rfl rfl).2.2.1,
   (scanner_dedup_high_wins sampleLowSSN sampleHighSSN rfl rfl rfl).2.2.2⟩

/-- C9: chunk deduplication is idempotent: feeding the concatenation of a
chunk result list with itself yields the same deduplicated candidate map as
feeding the list once. -/
theorem scanner_dedup_idempotent (results : List PIIExtractionResult) :
    dedupChunks (results ++ results) = dedupChunks results := by
  rw [dedupChunks_eq_dedupCandidates, dedupChunks_eq_dedupCandidates]
  have hsplit : (results ++ results).flatMap PIIExtractionResult.pii_candidates
      = results.flatMap PIIExtractionResult.pii_candidates
        ++ results.flatMap PIIExtractionResult.pii_candidates := by
    simp
  rw [hsplit]
  unfold dedupCandidates
  rw [List.foldl_append]
  exact foldl_dedupStep_self (results.flatMap PIIExtractionResult.pii_candidates)

/-! ## Chunking (`file.service.ts`, `chunkFileContent`)

Document content is modelled as a `List Char`; indices count characters,
matching the UTF-16 code-unit indexing of the JavaScript source on the data
these services handle. -/

/-- The `Chunk` record produced by `chunkFileContent`. -/
structure Chunk where
  index : Nat
  content : List Char
  startIndex : Nat
  endIndex : Nat
deriving DecidableEq, Repr

/-- The while loop of `chunkFileContent`: emit the window starting at
`start`, stop when the window reaches the end of the content, otherwise
advance by the step size `s`. -/
def chunkLoop (content : List Char) (C s : Nat) (hs : 0 < s) (start idx : Nat) : List Chunk :=
  if h : start < content.length then
    if min (start + C) content.length = content.length then
      [⟨idx, (content.drop start).take (min (start + C) content.length - start),
        start, min (start + C) content.length⟩]
    else
      ⟨idx, (content.drop start).take (min (start + C) content.length - start),
        start, min (start + C) content.length⟩
        :: chunkLoop content C s hs (start + s) (idx + 1)
  else []
termination_by content.length - start
decreasing_by omega

/-- `chunkFileContent` from `file.service.ts`: validate the arguments, then
run the chunking loop with step size `chunkSize - floor(chunkSize *
overlapPercentage / 100)`. -/
def chunkFileContent (content : List Char) (chunkSize overlapPercentage : Int) :
    Except String (List Chunk) :=
  if h1 : chunkSize ≤ 0 then Except.error "Chunk size must be greater than 0"
  else if h2 : overlapPercentage < 0 ∨ 100 ≤ overlapPercentage then
    Except.error "Overlap percentage must be between 0 and 100"
  else
    Except.ok (chunkLoop content chunkSize.toNat
      (chunkSize.toNat - chunkSize.toNat * overlapPercentage.toNat / 100)
      (by
        have hp : overlapPercentage.toNat ≤ 99 := by omega
        have h3 : chunkSize.toNat * overlapPercentage.toNat ≤ chunkSize.toNat * 99 :=
          Nat.mul_le_mul_left _ hp
        have h4 : chunkSize.toNat * overlapPercentage.toNat / 100
            ≤ chunkSize.toNat * 99 / 100 := Nat.div_le_div_right h3
        have h5 : chunkSize.toNat * 99 / 100 < chunkSize.toNat := by omega
        omega)
      0 0)

/-- The overlap size `floor(chunkSize * overlapPercentage / 100)` in
characters. -/
def chunkOverlap (chunkSize overlapPercentage : Int) : Nat :=
  chunkSize.toNat * overlapPercentage.toNat / 100

/-- The step size `chunkSize - overlapSize`. -/
def chunkStep (chunkSize overlapPercentage : Int) : Nat :=
  chunkSize.toNat - chunkOverlap chunkSize overlapPercentage

/-- Every chunk emitted by the loop is fully determined by its position:
the j-th emitted chunk starts at `start + j * s` and spans up to `C`
characters, clamped at the end of the content. -/
theorem chunkLoop_get (content : List Char) (C s : Nat) (hs : 0 < s) :
    ∀ (n start idx : Nat), content.length - start ≤ n →
      ∀ (j : Nat), j < (chunkLoop content C s hs start idx).length →
        (chunkLoop content C s hs start idx)[j]? =
          some ⟨idx + j,
            (content.drop (start + j * s)).take
              (min (start + j * s + C) content.length - (start + j * s)),
            start + j * s,
            min (start + j * s + C) content.length⟩ := by
  intro n
  induction n with
  | zero =>
    intro start idx hn j h
    rw [chunkLoop.eq_def] at h
    have hge : ¬ start < content.length := by omega
    rw [dif_neg hge] at h
    simp at h
  | succ n ih =>
    intro start idx hn j h
    by_cases hlt : start < content.length
    · by_cases hend : min (start + C) content.length = content.length
      · rw [chunkLoop.eq_def, dif_pos hlt, if_pos hend] at h ⊢
        have hj : j = 0 := by
          simpa using h
        subst hj
        simp
      · rw [chunkLoop.eq_def, dif_pos hlt, if_neg hend] at h ⊢
        cases j with
        | zero => simp
        | succ j =>
          have hlen : j < (chunkLoop content C s hs (start + s) (idx + 1)).length := by
            simpa using h
          have hrec := ih (start + s) (idx + 1) (by omega) j hlen
          rw [List.getElem?_cons_succ, hrec]
          have harith1 : idx + 1 + j = idx + (j + 1) := by omega
          have harith2 : start + s + j * s = start + (j + 1) * s := by ring
          rw [harith1, harith2]
    · rw [chunkLoop.eq_def, dif_neg hlt] at h
      simp at h

/-- Every position of the content is covered by some emitted chunk. -/
theorem chunkLoop_cover (content : List Char) (C s : Nat) (hs : 0 < s) (hsC : s ≤ C) :
    ∀ (n start idx : Nat), content.length - start ≤ n →
      ∀ pos, start ≤ pos → pos < content.length →
        ∃ (j : Nat) (c : Chunk), (chunkLoop content C s hs start idx)[j]? = some c ∧
          c.startIndex ≤ pos ∧ pos < c.endIndex := by
  intro n
  induction n with
  | zero =>
    intro start idx hn pos hpos1 hpos2
    omega
  | succ n ih =>
    intro start idx hn pos hpos1 hpos2
    have hlt : start < content.length := by omega
    by_cases hend : min (start + C) content.length = content.length
    · refine ⟨0, ⟨idx, (content.drop start).take (min (start + C) content.length - start),
        start, min (start + C) content.length⟩, ?_, hpos1, ?_⟩
      · rw [chunkLoop.eq_def, dif_pos hlt, if_pos hend]
        exact List.getElem?_cons_zero
      · show pos < min (start + C) content.length
        omega
    · by_cases hin : pos < min (start + C) content.length
      · refine ⟨0, ⟨idx, (content.drop start).take (min (start + C) content.length - start),
          start, min (start + C) content.length⟩, ?_, hpos1, hin⟩
        rw [chunkLoop.eq_def, dif_pos hlt, if_neg hend]
        exact List.getElem?_cons_zero
      · have hCL : start + C < content.length := by omega
        obtain ⟨j, c, hgetj, hcov1, hcov2⟩ :=
          ih (start + s) (idx + 1) (by omega) pos (by omega) hpos2
        refine ⟨j + 1, c, ?_, hcov1, hcov2⟩
        rw [chunkLoop.eq_def, dif_pos hlt, if_neg hend, List.getElem?_cons_succ]
        exact hgetj

/-- Every chunk that is followed by another chunk stops strictly before the
end of the content: the loop breaks as soon as a window reaches the end. -/
theorem chunkLoop_not_last (content : List Char) (C s : Nat) (hs : 0 < s) :
    ∀ (n start idx : Nat), content.length - start ≤ n →
      ∀ (j : Nat) (cj cnext : Chunk),
        (chunkLoop content C s hs start idx)[j]? = some cj →
        (chunkLoop content C s hs start idx)[j + 1]? = some cnext →
        cj.endIndex < content.length := by
  intro n
  induction n with
  | zero =>
    intro start idx hn j cj cnext hj hnext
    rw [chunkLoop.eq_def] at hj
    have hge : ¬ start < content.length := by omega
    rw [dif_neg hge] at hj
    simp at hj
  | succ n ih =>
    intro start idx hn j cj cnext hj hnext
    by_cases hlt : start < content.length
    · by_cases hend : min (start + C) content.length = content.length
      · rw [chunkLoop.eq_def, dif_pos hlt, if_pos hend] at hnext
        rcases j with _ | j <;> simp at hnext
      · rw [chunkLoop.eq_def, dif_pos hlt, if_neg hend] at hj hnext
        cases j with
        | zero =>
          simp only [List.getElem?_cons_zero, Option.some.injEq] at hj
          subst hj
          show min (start + C) content.length < content.length
          omega
        | succ j =>
          rw [List.getElem?_cons_succ] at hj hnext
          exact ih (start + s) (idx + 1) (by omega) j cj cnext hj hnext
    · rw [chunkLoop.eq_def, dif_neg hlt] at hj
      simp at hj

/-- The full specification of a successful chunking run: every window sits
at `j * stepSize` and spans `[start, min(start + chunkSize, L))`, the
windows cover `[0, L)`, consecutive windows overlap by exactly the overlap
size, and any window followed by another one stops strictly before `L`. -/
def ChunkerOk (content : List Char) (chunkSize overlapPercentage : Int) : Prop :=
  ∃ cs, chunkFileContent content chunkSize overlapPercentage = Except.ok cs ∧
    (∀ j, j < cs.length →
      cs[j]? = some ⟨j,
        (content.drop (j * chunkStep chunkSize overlapPercentage)).take
          (min (j * chunkStep chunkSize overlapPercentage + chunkSize.toNat) content.length
            - j * chunkStep chunkSize overlapPercentage),
        j * chunkStep chunkSize overlapPercentage,
        min (j * chunkStep chunkSize overlapPercentage + chunkSize.toNat) content.length⟩) ∧
    (∀ pos, pos < content.length →
      ∃ (j : Nat) (c : Chunk), cs[j]? = some c ∧ c.startIndex ≤ pos ∧ pos < c.endIndex) ∧
    (∀ (j : Nat) (cj cnext : Chunk), cs[j]? = some cj → cs[j + 1]? = some cnext →
      cj.endIndex < content.length ∧ cnext.startIndex ≤ cj.endIndex ∧
      cj.endIndex - cnext.startIndex = chunkOverlap chunkSize overlapPercentage)

/-- C7: for every content and for every `chunkSize > 0` and
`overlapPercentage ∈ [0, 100)`, `chunkFileContent` succeeds and produces
windows starting at multiples of `stepSize = chunkSize -
floor(chunkSize * overlapPercentage / 100)`, each spanning
`[start, min(start + chunkSize, L))`, covering `[0, L)`, with consecutive
windows overlapping by exactly the overlap size and chunking stopping once
a window reaches `L`; invalid arguments fail with an error before any chunk
is produced. -/
theorem chunker_spec (content : List Char) (chunkSize overlapPercentage : Int) :
    (0 < chunkSize → 0 ≤ overlapPercentage → overlapPercentage < 100 →
      ChunkerOk content chunkSize overlapPercentage) ∧
    ((chunkSize ≤ 0 ∨ overlapPercentage < 0 ∨ 100 ≤ overlapPercentage) →
      ∃ e, chunkFileContent content chunkSize overlapPercentage = Except.error e) := by
  constructor
  · intro hpos hol hoh
    have h1 : ¬ chunkSize ≤ 0 := by omega
    have h2 : ¬ (overlapPercentage < 0 ∨ 100 ≤ overlapPercentage) := by omega
    have hov : chunkOverlap chunkSize overlapPercentage < chunkSize.toNat := by
      unfold chunkOverlap
      have hp : overlapPercentage.toNat ≤ 99 := by omega
      have h3 : chunkSize.toNat * overlapPercentage.toNat ≤ chunkSize.toNat * 99 :=
        Nat.mul_le_mul_left _ hp
      have h4 : chunkSize.toNat * overlapPercentage.toNat / 100
          ≤ chunkSize.toNat * 99 / 100 := Nat.div_le_div_right h3
      have h5 : chunkSize.toNat * 99 / 100 < chunkSize.toNat := by omega
      omega
    have hsdef : chunkSize.toNat - chunkSize.toNat * overlapPercentage.toNat / 100
        = chunkStep chunkSize overlapPercentage := rfl
    have hstep_pos : 0 < chunkStep chunkSize overlapPercentage := by
      unfold chunkStep
      omega
    have hstep_le : chunkStep chunkSize overlapPercentage ≤ chunkSize.toNat := by
      unfold chunkStep
      omega
    have hov2 : chunkSize.toNat * overlapPercentage.toNat / 100 < chunkSize.toNat := hov
    rw [ChunkerOk]
    refine ⟨chunkLoop content chunkSize.toNat
      (chunkSize.toNat - chunkSize.toNat * overlapPercentage.toNat / 100)
      (by omega) 0 0, ?_, ?_, ?_, ?_⟩
    · rw [chunkFileContent, dif_neg h1, dif_neg h2]
    · intro j hj
      have := chunkLoop_get content chunkSize.toNat
        (chunkSize.toNat - chunkSize.toNat * overlapPercentage.toNat / 100)
        (by omega) content.length 0 0 (by omega) j (by simpa using hj)
      simpa [hsdef] using this
    · intro pos hpos2
      obtain ⟨j, c, hget, hc1, hc2⟩ := chunkLoop_cover content chunkSize.toNat
        (chunkSize.toNat - chunkSize.toNat * overlapPercentage.toNat / 100)
        (by omega) (by omega) content.length 0 0 (by omega) pos (by omega) hpos2
      exact ⟨j, c, hget, hc1, hc2⟩
    · intro j cj cnext hj hnext
      have hlast := chunkLoop_not_last content chunkSize.toNat
        (chunkSize.toNat - chunkSize.toNat * overlapPercentage.toNat / 100)
        (by omega) content.length 0 0 (by omega) j cj cnext hj hnext
      have hjlen : j < (chunkLoop content chunkSize.toNat
          (chunkSize.toNat - chunkSize.toNat * overlapPercentage.toNat / 100)
          (by omega) 0 0).length := (List.getElem?_eq_some.mp hj).1
      have hnlen : j + 1 < (chunkLoop content chunkSize.toNat
          (chunkSize.toNat - chunkSize.toNat * overlapPercentage.toNat / 100)
          (by omega) 0 0).length := (List.getElem?_eq_some.mp hnext).1
      have hjget := chunkLoop_get content chunkSize.toNat
        (chunkSize.toNat - chunkSize.toNat * overlapPercentage.toNat / 100)
        (by omega) content.length 0 0 (by omega) j hjlen
      have hnget := chunkLoop_get content chunkSize.toNat
        (chunkSize.toNat - chunkSize.toNat * overlapPercentage.toNat / 100)
        (by omega) content.length 0 0 (by omega) (j + 1) hnlen
      have hcj : cj = ⟨j,
          (content.drop (j * chunkStep chunkSize overlapPercentage)).take
            (min (j * chunkStep chunkSize overlapPercentage + chunkSize.toNat)
              content.length - j * chunkStep chunkSize overlapPercentage),
          j * chunkStep chunkSize overlapPercentage,
          min (j * chunkStep chunkSize overlapPercentage + chunkSize.toNat)
            content.length⟩ := by
        have h0 := Option.some.inj (hj.symm.trans hjget)
        simpa [hsdef] using h0
      have hcn : cnext = ⟨j + 1,
          (content.drop ((j + 1) * chunkStep chunkSize overlapPercentage)).take
            (min ((j + 1) * chunkStep chunkSize overlapPercentage + chunkSize.toNat)
              content.length - (j + 1) * chunkStep chunkSize overlapPercentage),
          (j + 1) * chunkStep chunkSize overlapPercentage,
          min ((j + 1) * chunkStep chunkSize overlapPercentage + chunkSize.toNat)
            content.length⟩ := by
        have h0 := Option.some.inj (hnext.symm.trans hnget)
        simpa [hsdef] using h0
      subst hcj
      subst hcn
      simp only at hlast ⊢
      have hmul : (j + 1) * chunkStep chunkSize overlapPercentage
          = j * chunkStep chunkSize overlapPercentage
            + chunkStep chunkSize overlapPercentage := by ring
      have hovdef : chunkStep chunkSize overlapPercentage
          = chunkSize.toNat - chunkOverlap chunkSize overlapPercentage := rfl
      rw [hmul]
      omega
  · intro hbad
    rw [chunkFileContent]
    by_cases h1 : chunkSize ≤ 0
    · rw [dif_pos h1]
      exact ⟨_, rfl⟩
    · have h2 : overlapPercentage < 0 ∨ 100 ≤ overlapPercentage := by
        rcases hbad with h | h | h
        · omega
        · exact Or.inl h
        · exact Or.inr h
      rw [dif_neg h1, dif_pos h2]
      exact ⟨_, rfl⟩

/-- Sample content for the chunker witness. -/
def sampleContent : List Char := ['a', 'b', 'c', 'd', 'e', 'f']

/-- Witness for C7: chunking six characters with size 4 and 50 percent
overlap succeeds with the specified window layout. -/
theorem chunker_spec_witness : ChunkerOk sampleContent 4 50 :=
  (chunker_spec sampleContent 4 50).1 (by decide) (by decide) (by decide)

/-! ## Resolution service (`pii-resolution.service.ts`) -/

/-- `ResolutionOptions`. -/
structure ResolutionOptions where
  ambiguous_only : Bool
  min_confidence : Option Confidence
  include_high_confidence_in_conflicts : Bool
  normalize_values : Bool
deriving DecidableEq, Repr

/-- The numeric confidence order `{low: 0, medium: 1, high: 2}`. -/
def confidenceOrder : Confidence → Nat
  | Confidence.low => 0
  | Confidence.medium => 1
  | Confidence.high => 2

/-- The fixed identity-type lexicon of `isIdentityType`. -/
def identityTypesList : List String :=
  ["name", "customer name", "subscriber name", "employee name",
   "address", "home address", "mailing address", "billing address", "service address",
   "phone", "phone number", "telephone", "contact phone"]

/-- `PIIResolutionService.isIdentityType`: the lowercased type contains one
of the lexicon entries as a substring. -/
def isIdentityType (piiType : String) : Bool :=
  identityTypesList.any (fun t => jsIncludes (jsToLower piiType) t)

/-- JavaScript truthiness of an optional string: `undefined`/`null` and the
empty string are falsy, every other string is truthy. -/
def jsTruthy (v : Option String) : Bool :=
  match v with
  | none => false
  | some s => !(s == "")

/-- The normalized key of an identity field, `null` when the field is
missing or empty (JavaScript truthiness of the guard `file.name ? ... : null`).
A whitespace-only field yields the key `""`. -/
def identityFieldKey (v : Option String) : Option String :=
  match v with
  | none => none
  | some s => if s = "" then none else some (normalizeValue s)

/-- Whether a candidate value equals a (possibly absent) normalized
identity-field key: the guard `normalizedName && candidateValue === normalizedName`
short-circuits when the key is absent and also when it is the empty string
(a whitespace-only record field), since both are falsy in JavaScript. -/
def matchesField (key : Option String) (candidateValue : String) : Bool :=
  match key with
  | some s => if s = "" then false else candidateValue == s
  | none => false

/-- The grouping key of a value under the given options. -/
def valKey (o : ResolutionOptions) (v : String) : String :=
  if o.normalize_values then normalizeValue v else v

/-- The candidate filter of `loadFromExtractionResults`: mirrors the chain
of `continue` guards of the ingestion loop. -/
def keepCandidate (file : IndividualRecord) (o : ResolutionOptions) (c : PIICandidate) : Bool :=
  if isIdentityType c.pii_type then false
  else
    if matchesField (identityFieldKey file.name) (valKey o c.value)
        || matchesField (identityFieldKey file.address) (valKey o c.value)
        || matchesField (identityFieldKey file.phone) (valKey o c.value) then false
    else if o.ambiguous_only && (c.confidence == Confidence.high) then false
    else
      match o.min_confidence with
      | some m => if confidenceOrder c.confidence < confidenceOrder m then false else true
      | none => true

/-- `loadFromExtractionResults`: the occurrence list loaded from a corpus
under the given options. -/
def loadFromExtractionResults (results : ExtractionResults) (o : ResolutionOptions) :
    List PIIOccurrence :=
  results.files.flatMap (fun file =>
    (file.pii_candidates.filter (keepCandidate file o)).map
      (fun c => ⟨c, file.file_name, file.file_path⟩))

/-- Confidence tally of a group. -/
structure ConfidenceBreakdown where
  high : Nat
  medium : Nat
  low : Nat
deriving DecidableEq, Repr

/-- Increment the tally for one observed confidence. -/
def bumpBreakdown (b : ConfidenceBreakdown) : Confidence → ConfidenceBreakdown
  | Confidence.high => { b with high := b.high + 1 }
  | Confidence.medium => { b with medium := b.medium + 1 }
  | Confidence.low => { b with low := b.low + 1 }

/-- `ValueGroup`. -/
structure ValueGroup where
  value : String
  pii_types : List String
  contexts : List String
  all_contexts : List String
  confidence_breakdown : ConfidenceBreakdown
  occurrences : Nat
  files : List String
  occurrences_detail : List PIIOccurrence
  is_ambiguous : Bool
  has_type_conflict : Bool
deriving DecidableEq, Repr

/-- `TypeGroup`. -/
structure TypeGroup where
  pii_type : String
  values : List String
  contexts : List String
  all_contexts : List String
  confidence_breakdown : ConfidenceBreakdown
  occurrences : Nat
  files : List String
  occurrences_detail : List PIIOccurrence
  is_ambiguous : Bool
  has_value_conflict : Bool
  unique_value_count : Nat
deriving DecidableEq, Repr

/-- The identity-field discriminator of an `IdentityGroup`. -/
inductive IdentityField where
  | name
  | address
  | phone
deriving DecidableEq, Repr

/-- `IdentityGroup`: whole records joined on one shared identity field. -/
structure IdentityGroup where
  value : String
  field : IdentityField
  files : List (String × String)
  count : Nat
deriving DecidableEq, Repr

/-- The three identity maps of the resolution result. -/
structure IdentityGroups where
  name : List (String × IdentityGroup)
  address : List (String × IdentityGroup)
  phone : List (String × IdentityGroup)
deriving DecidableEq, Repr

/-- `UnifiedPIIType`: one canonical-schema entry. -/
structure UnifiedPIIType where
  canonical_type : String
  variations : List String
  total_occurrences : Nat
  unique_values_count : Nat
  confidence_breakdown : ConfidenceBreakdown
  files : List String
deriving DecidableEq, Repr

/-- The three conflict kinds. -/
inductive ConflictType where
  | value_type_mismatch
  | type_value_mismatch
  | confidence_issue
deriving DecidableEq, Repr

/-- `PIIConflict`. -/
structure PIIConflict where
  conflict_type : ConflictType
  description : String
  value : Option String
  pii_type : Option String
  files : List String
  severity : Confidence
  occurrences : List PIIOccurrence
deriving DecidableEq, Repr

/-- The summary block of a resolution result. -/
structure ResolutionSummary where
  total_ambiguous_candidates : Nat
  total_value_groups : Nat
  total_type_groups : Nat
  value_conflicts_count : Nat
  type_conflicts_count : Nat
  total_conflicts : Nat
  total_unified_types : Nat
deriving DecidableEq, Repr

/-- `PIIResolutionResult`. -/
structure PIIResolutionResult where
  value_groups : List (String × ValueGroup)
  type_groups : List (String × TypeGroup)
  identity_groups : IdentityGroups
  unified_schema : List (String × UnifiedPIIType)
  conflicts : List PIIConflict
  summary : ResolutionSummary
  options : ResolutionOptions
deriving DecidableEq, Repr

/-- The fresh group created when a value key is first seen. -/
def emptyValueGroup (c : PIICandidate) : ValueGroup :=
  { value := c.value, pii_types := [], contexts := [], all_contexts := [],
    confidence_breakdown := ⟨0, 0, 0⟩, occurrences := 0, files := [],
    occurrences_detail := [], is_ambiguous := false, has_type_conflict := false }

/-- One iteration of the `groupByValue` accumulation loop. -/
def valueStep (o : ResolutionOptions) (m : List (String × ValueGroup)) (occ : PIIOccurrence) :
    List (String × ValueGroup) :=
  let c := occ.candidate
  let key := valKey o c.value
  let g0 := (mapGet m key).getD (emptyValueGroup c)
  mapSet m key { g0 with
    pii_types := if c.pii_type ∈ g0.pii_types then g0.pii_types
      else g0.pii_types ++ [c.pii_type],
    all_contexts := match c.context with
      | some ctx => if ctx = "" then g0.all_contexts else g0.all_contexts ++ [ctx]
      | none => g0.all_contexts,
    contexts := match c.context with
      | some ctx => if ctx = "" then g0.contexts
          else if ctx ∈ g0.contexts then g0.contexts else g0.contexts ++ [ctx]
      | none => g0.contexts,
    confidence_breakdown := bumpBreakdown g0.confidence_breakdown c.confidence,
    files := if occ.file_name ∈ g0.files then g0.files else g0.files ++ [occ.file_name],
    occurrences_detail := g0.occurrences_detail ++ [occ],
    occurrences := g0.occurrences + 1 }

/-- `groupByValue`: accumulate, then mark ambiguity and type conflicts. -/
def groupByValue (occs : List PIIOccurrence) (o : ResolutionOptions) :
    List (String × ValueGroup) :=
  (occs.foldl (valueStep o) []).map (fun kg =>
    (kg.1, { kg.2 with
      is_ambiguous := decide (1 < kg.2.pii_types.length)
        || decide (0 < kg.2.confidence_breakdown.medium)
        || decide (0 < kg.2.confidence_breakdown.low),
      has_type_conflict := decide (1 < kg.2.pii_types.length) }))

/-- The fresh group created when a type key is first seen. -/
def emptyTypeGroup (t : String) : TypeGroup :=
  { pii_type := t, values := [], contexts := [], all_contexts := [],
    confidence_breakdown := ⟨0, 0, 0⟩, occurrences := 0, files := [],
    occurrences_detail := [], is_ambiguous := false, has_value_conflict := false,
    unique_value_count := 0 }

/-- One iteration of the `groupByType` accumulation loop. The value push
mirrors `const existingValue = group.values.find(...); if (!existingValue) push`:
the candidate value is appended when no stored value shares its grouping
key, and also when the first stored value sharing the key is the empty
string, which is falsy in JavaScript. -/
def typeStep (o : ResolutionOptions) (m : List (String × TypeGroup)) (occ : PIIOccurrence) :
    List (String × TypeGroup) :=
  let c := occ.candidate
  let g0 := (mapGet m c.pii_type).getD (emptyTypeGroup c.pii_type)
  mapSet m c.pii_type { g0 with
    values := if jsTruthy (g0.values.find? (fun v => valKey o v == valKey o c.value))
      then g0.values
      else g0.values ++ [c.value],
    all_contexts := match c.context with
      | some ctx => if ctx = "" then g0.all_contexts else g0.all_contexts ++ [ctx]
      | none => g0.all_contexts,
    contexts := match c.context with
      | some ctx => if ctx = "" then g0.contexts
          else if ctx ∈ g0.contexts then g0.contexts else g0.contexts ++ [ctx]
      | none => g0.contexts,
    confidence_breakdown := bumpBreakdown g0.confidence_breakdown c.confidence,
    files := if occ.file_name ∈ g0.files then g0.files else g0.files ++ [occ.file_name],
    occurrences_detail := g0.occurrences_detail ++ [occ],
    occurrences := g0.occurrences + 1 }

/-- `groupByType`: accumulate, then set the unique value count and the
conflict flags. -/
def groupByType (occs : List PIIOccurrence) (o : ResolutionOptions) :
    List (String × TypeGroup) :=
  (occs.foldl (typeStep o) []).map (fun kg =>
    (kg.1, { kg.2 with
      unique_value_count := kg.2.values.length,
      is_ambiguous := decide (1 < kg.2.values.length)
        || decide (0 < kg.2.confidence_breakdown.medium)
        || decide (0 < kg.2.confidence_breakdown.low),
      has_value_conflict := decide (1 < kg.2.values.length) }))

/-- Add one file to the identity group stored under the key of `rawValue`. -/
def identityUpdate (o : ResolutionOptions) (m : List (String × IdentityGroup))
    (field : IdentityField) (rawValue : String) (r : IndividualRecord) :
    List (String × IdentityGroup) :=
  let key := valKey o rawValue
  let g0 := (mapGet m key).getD ⟨rawValue, field, [], 0⟩
  mapSet m key { g0 with
    files := g0.files ++ [(r.file_name, r.file_path)],
    count := g0.count + 1 }

/-- `groupByIdentity`: join whole records on each non-empty identity field. -/
def groupByIdentity (records : List IndividualRecord) (o : ResolutionOptions) :
    IdentityGroups :=
  records.foldl (fun acc r =>
    { name := match r.name with
        | some v => if v = "" then acc.name
            else identityUpdate o acc.name IdentityField.name v r
        | none => acc.name,
      address := match r.address with
        | some v => if v = "" then acc.address
            else identityUpdate o acc.address IdentityField.address v r
        | none => acc.address,
      phone := match r.phone with
        | some v => if v = "" then acc.phone
            else identityUpdate o acc.phone IdentityField.phone v r
        | none => acc.phone }) ⟨[], [], []⟩

/-- Add `s` to the relation set stored under `t` (a JavaScript `Set.add`). -/
def relAdd (R : List (String × List String)) (t s : String) : List (String × List String) :=
  match mapGet R t with
  | some l => mapSet R t (if s ∈ l then l else l ++ [s])
  | none => R

/-- Create an empty relation set under `t` when absent. -/
def relEnsure (R : List (String × List String)) (t : String) : List (String × List String) :=
  if (mapGet R t).isSome then R else mapSet R t []

/-- The double loop over the types of one multi-type value group: relate
every ordered pair of distinct labels. -/
def relAddGroup (R : List (String × List String)) (ts : List String) :
    List (String × List String) :=
  ts.foldl (fun R1 t1 =>
    ts.foldl (fun R2 t2 => if t1 ≠ t2 then relAdd R2 t1 t2 else R2) (relEnsure R1 t1)) R

/-- The options object passed to `groupByValue` inside
`buildUnifiedSchema`: value normalization on, no confidence filtering. -/
def schemaGroupOptions : ResolutionOptions :=
  { ambiguous_only := false, min_confidence := none,
    include_high_confidence_in_conflicts := false, normalize_values := true }

/-- The type-relation map of `buildUnifiedSchema`: seed every observed type
with an empty set, then relate the labels of every multi-type value group
(computed with value normalization on and no confidence filtering). -/
def typeRelationsOf (occs : List PIIOccurrence) : List (String × List String) :=
  (groupByValue occs schemaGroupOptions).foldl
    (fun R kg => if 1 < kg.2.pii_types.length then relAddGroup R kg.2.pii_types else R)
    (occs.foldl (fun R occ => relEnsure R occ.candidate.pii_type) [])

/-- Helper for `dedupFirst`: keep elements not seen before, in order. -/
def dedupFirstAux (seen : List String) : List String → List String
  | [] => []
  | x :: xs => if x ∈ seen then dedupFirstAux seen xs
      else x :: dedupFirstAux (seen ++ [x]) xs

/-- `Array.from(new Set(...))`: drop later duplicates, keep first-seen
order. -/
def dedupFirst (l : List String) : List String :=
  dedupFirstAux [] l

/-- The canonical-schema entry built for one type group: its variations are
the sorted related types, demoted back to the type itself when fewer than
two survive. -/
def mkSchemaEntry (occs : List PIIOccurrence) (t : String) (g : TypeGroup) : UnifiedPIIType :=
  let relatedTypes := (mapGet (typeRelationsOf occs) t).getD []
  let variations := if 0 < relatedTypes.length then sortStrings relatedTypes else [t]
  { canonical_type := t,
    variations := if 1 < variations.length then variations else [t],
    total_occurrences := g.occurrences,
    unique_values_count := g.unique_value_count,
    confidence_breakdown := g.confidence_breakdown,
    files := dedupFirst g.files }

/-- `buildUnifiedSchema`: one entry per type group. -/
def buildUnifiedSchema (occs : List PIIOccurrence)
    (typeGroups : List (String × TypeGroup)) : List (String × UnifiedPIIType) :=
  typeGroups.foldl (fun sch kg => mapSet sch kg.1 (mkSchemaEntry occs kg.1 kg.2)) []

/-- The `value_type_mismatch` conflict emitted for a conflicted value group. -/
def valueConflictOf (g : ValueGroup) : PIIConflict :=
  { conflict_type := ConflictType.value_type_mismatch,
    description := "Value \"" ++ g.value ++ "\" was identified as multiple PII types: "
      ++ String.intercalate ", " g.pii_types,
    value := some g.value,
    pii_type := none,
    files := g.files,
    severity := if 2 < g.pii_types.length then Confidence.high else Confidence.medium,
    occurrences := g.occurrences_detail }

/-- The `type_value_mismatch` conflict emitted for a conflicted type group. -/
def typeConflictOf (g : TypeGroup) : PIIConflict :=
  { conflict_type := ConflictType.type_value_mismatch,
    description := "PII type \"" ++ g.pii_type ++ "\" appears with "
      ++ toString g.values.length ++ " different values",
    value := none,
    pii_type := some g.pii_type,
    files := g.files,
    severity := if 3 < g.values.length then Confidence.high else Confidence.medium,
    occurrences := g.occurrences_detail }

/-- The `confidence_issue` conflict emitted for one low-confidence
occurrence. -/
def confidenceConflictOf (occ : PIIOccurrence) : PIIConflict :=
  { conflict_type := ConflictType.confidence_issue,
    description := "Low confidence PII: \"" ++ occ.candidate.value ++ "\" as \""
      ++ occ.candidate.pii_type ++ "\"",
    value := some occ.candidate.value,
    pii_type := some occ.candidate.pii_type,
    files := [occ.file_name],
    severity := Confidence.low,
    occurrences := [occ] }

/-- `identifyConflicts`: the three emission passes, in program order. -/
def identifyConflicts (occs : List PIIOccurrence)
    (valueGroups : List (String × ValueGroup))
    (typeGroups : List (String × TypeGroup)) : List PIIConflict :=
  ((valueGroups.map Prod.snd).filter (fun g => g.has_type_conflict)).map valueConflictOf
    ++ ((typeGroups.map Prod.snd).filter (fun g => g.has_value_conflict)).map typeConflictOf
    ++ (occs.filter (fun occ => occ.candidate.confidence == Confidence.low)).map
        confidenceConflictOf

/-- `resolve`: fail when no records were loaded, otherwise build all groups,
the unified schema, the conflicts and the summary. -/
def resolve (records : List IndividualRecord) (occurrences : List PIIOccurrence)
    (options : ResolutionOptions) : Except String PIIResolutionResult :=
  if records.length = 0 then
    Except.error "No records loaded. Call loadFromExtractionResults() first."
  else
    let valueGroups := groupByValue occurrences options
    let typeGroups := groupByType occurrences options
    let unifiedSchema := buildUnifiedSchema occurrences typeGroups
    let conflicts := identifyConflicts occurrences valueGroups typeGroups
    Except.ok {
      value_groups := valueGroups,
      type_groups := typeGroups,
      identity_groups := groupByIdentity records options,
      unified_schema := unifiedSchema,
      conflicts := conflicts,
      summary := {
        total_ambiguous_candidates := occurrences.length,
        total_value_groups := valueGroups.length,
        total_type_groups := typeGroups.length,
        value_conflicts_count :=
          ((valueGroups.map Prod.snd).filter (fun g => g.has_type_conflict)).length,
        type_conflicts_count :=
          ((typeGroups.map Prod.snd).filter (fun g => g.has_value_conflict)).length,
        total_conflicts := conflicts.length,
        total_unified_types := unifiedSchema.length },
      options := options }

/-! ## C1: when `resolve` fails -/

/-- C1 (amended): `resolve` fails with the NotLoaded error exactly when the
loaded record list is empty; a nonempty corpus whose candidates were all
filtered out (zero occurrences) still resolves. -/
theorem resolve_notloaded_iff (records : List IndividualRecord)
    (occurrences : List PIIOccurrence) (options : ResolutionOptions) :
    (∃ e, resolve records occurrences options = Except.error e) ↔ records = [] := by
  unfold resolve
  by_cases h : records.length = 0
  · simp only [h, if_pos]
    constructor
    · intro _
      exact List.length_eq_zero.mp h
    · intro _
      exact ⟨_, rfl⟩
  · simp only [h, if_neg, if_false]
    constructor
    · rintro ⟨e, he⟩
      cases he
    · intro hnil
      subst hnil
      simp at h

/-- A record carrying no PII candidates. -/
def emptyCandidateRecord : IndividualRecord :=
  { file_name := "doc1.txt", file_path := "docs/doc1.txt", name := none,
    address := none, phone := none, pii_candidates := [] }

/-- A one-document corpus that yields zero occurrences. -/
def emptyYieldCorpus : ExtractionResults :=
  { timestamp := "2024-01-01", total_files_processed := 1, total_pii_found := 0,
    files := [emptyCandidateRecord] }

/-- The default options of `resolve`. -/
def defaultOptions : ResolutionOptions :=
  { ambiguous_only := true, min_confidence := none,
    include_high_confidence_in_conflicts := false, normalize_values := true }

/-- Counterexample for C1 as stated: loading a nonempty corpus that yields
zero occurrences does not make `resolve` fail — resolution runs with zero
loaded occurrences. -/
theorem resolve_zero_occurrences_counterexample :
    loadFromExtractionResults emptyYieldCorpus defaultOptions = [] ∧
    ∃ r, resolve emptyYieldCorpus.files
        (loadFromExtractionResults emptyYieldCorpus defaultOptions) defaultOptions
      = Except.ok r :=
  ⟨rfl, ⟨_, rfl⟩⟩

/-! ## C10: summary consistency -/

/-- C10: in every result returned by `resolve`, the summary counts agree
with the returned collections, and `total_ambiguous_candidates` is the
number of loaded occurrences. -/
theorem resolve_summary_consistent (records : List IndividualRecord)
    (occurrences : List PIIOccurrence) (options : ResolutionOptions)
    (res : PIIResolutionResult) (h : resolve records occurrences options = Except.ok res) :
    res.summary.total_value_groups = res.value_groups.length ∧
    res.summary.total_type_groups = res.type_groups.length ∧
    res.summary.value_conflicts_count
      = ((res.value_groups.map Prod.snd).filter (fun g => g.has_type_conflict)).length ∧
    res.summary.type_conflicts_count
      = ((res.type_groups.map Prod.snd).filter (fun g => g.has_value_conflict)).length ∧
    res.summary.total_conflicts = res.conflicts.length ∧
    res.summary.total_unified_types = res.unified_schema.length ∧
    res.summary.total_ambiguous_candidates = occurrences.length := by
  unfold resolve at h
  by_cases hr : records.length = 0
  · rw [if_pos hr] at h
    cases h
  · rw [if_neg hr] at h
    have hres := (Except.ok.injEq _ _).mp h.symm
    subst hres
    exact ⟨rfl, rfl, rfl, rfl, rfl, rfl, rfl⟩

/-- Witness for C10: the summary equalities evaluated on a concrete run. -/
theorem resolve_summary_consistent_witness :
    ∃ r, resolve emptyYieldCorpus.files [] defaultOptions = Except.ok r ∧
      (r.summary.total_value_groups = r.value_groups.length ∧
       r.summary.total_type_groups = r.type_groups.length ∧
       r.summary.value_conflicts_count
         = ((r.value_groups.map Prod.snd).filter (fun g => g.has_type_conflict)).length ∧
       r.summary.type_conflicts_count
         = ((r.type_groups.map Prod.snd).filter (fun g => g.has_value_conflict)).length ∧
       r.summary.total_conflicts = r.conflicts.length ∧
       r.summary.total_unified_types = r.unified_schema.length ∧
       r.summary.total_ambiguous_candidates = ([] : List PIIOccurrence).length) :=
  ⟨_, rfl, resolve_summary_consistent emptyYieldCorpus.files [] defaultOptions _ rfl⟩

/-! ## Group accumulation invariants -/

theorem mapKeys_nodup_mapSet (m : List (String × α)) (k : String) (v : α)
    (h : (mapKeys m).Nodup) : (mapKeys (mapSet m k v)).Nodup := by
  cases hget : mapGet m k with
  | some w =>
    rw [mapKeys_mapSet_of_isSome m k v (by rw [hget]; rfl)]
    exact h
  | none =>
    rw [mapKeys_mapSet_of_isNone m k v hget]
    have hnm : k ∉ mapKeys m := (mapGet_eq_none_iff_not_mem_mapKeys m k).mp hget
    simp [List.nodup_append, h, hnm]

theorem mapGet_of_mem_nodup (m : List (String × α)) (k : String) (v : α)
    (hnd : (mapKeys m).Nodup) (hmem : (k, v) ∈ m) : mapGet m k = some v := by
  induction m with
  | nil => cases hmem
  | cons p rest ih =>
    obtain ⟨k1, v1⟩ := p
    simp only [mapKeys, List.map_cons, List.nodup_cons] at hnd
    rcases List.mem_cons.mp hmem with he | hr
    · have hk : k1 = k := by
        have := congrArg Prod.fst he
        exact this.symm
      have hv : v1 = v := by
        have := congrArg Prod.snd he
        exact this.symm
      simp [mapGet, hk, hv]
    · have hk1 : k1 ≠ k := by
        intro hk
        subst hk
        exact hnd.1 (List.mem_map_of_mem Prod.fst hr)
      simp only [mapGet, if_neg hk1]
      exact ih hnd.2 hr

theorem foldl_valueStep_keys_nodup (o : ResolutionOptions) (occs : List PIIOccurrence) :
    ∀ (m : List (String × ValueGroup)), (mapKeys m).Nodup →
      (mapKeys (occs.foldl (valueStep o) m)).Nodup := by
  induction occs with
  | nil => intro m h; exact h
  | cons occ rest ih =>
    intro m h
    simp only [List.foldl_cons]
    apply ih
    unfold valueStep
    exact mapKeys_nodup_mapSet _ _ _ h

theorem foldl_typeStep_keys_nodup (o : ResolutionOptions) (occs : List PIIOccurrence) :
    ∀ (m : List (String × TypeGroup)), (mapKeys m).Nodup →
      (mapKeys (occs.foldl (typeStep o) m)).Nodup := by
  induction occs with
  | nil => intro m h; exact h
  | cons occ rest ih =>
    intro m h
    simp only [List.foldl_cons]
    apply ih
    unfold typeStep
    exact mapKeys_nodup_mapSet _ _ _ h

/-- Per-group bookkeeping invariant of the `groupByValue` accumulator: the
confidence tally counts the detailed occurrence list, and the type list is
duplicate-free. -/
def VGLocal (g : ValueGroup) : Prop :=
  g.confidence_breakdown.high =
    (g.occurrences_detail.filter
      (fun occ => occ.candidate.confidence == Confidence.high)).length ∧
  g.confidence_breakdown.medium =
    (g.occurrences_detail.filter
      (fun occ => occ.candidate.confidence == Confidence.medium)).length ∧
  g.confidence_breakdown.low =
    (g.occurrences_detail.filter
      (fun occ => occ.candidate.confidence == Confidence.low)).length ∧
  g.pii_types.Nodup

theorem VGLocal_update (occ : PIIOccurrence) (g0 g1 : ValueGroup) (h : VGLocal g0)
    (hdetail : g1.occurrences_detail = g0.occurrences_detail ++ [occ])
    (hbd : g1.confidence_breakdown
      = bumpBreakdown g0.confidence_breakdown occ.candidate.confidence)
    (hpt : g1.pii_types = if occ.candidate.pii_type ∈ g0.pii_types then g0.pii_types
      else g0.pii_types ++ [occ.candidate.pii_type]) :
    VGLocal g1 := by
  obtain ⟨hh, hmd, hl, hnd⟩ := h
  refine ⟨?_, ?_, ?_, ?_⟩
  · rw [hbd, hdetail]
    cases hc : occ.candidate.confidence <;>
      simp [bumpBreakdown, hc, hh, hmd, hl, List.filter_append]
  · rw [hbd, hdetail]
    cases hc : occ.candidate.confidence <;>
      simp [bumpBreakdown, hc, hh, hmd, hl, List.filter_append]
  · rw [hbd, hdetail]
    cases hc : occ.candidate.confidence <;>
      simp [bumpBreakdown, hc, hh, hmd, hl, List.filter_append]
  · rw [hpt]
    by_cases hmem : occ.candidate.pii_type ∈ g0.pii_types
    · simpa [hmem] using hnd
    · simp [hmem, List.nodup_append, hnd]

theorem foldl_valueStep_local (o : ResolutionOptions) (occs : List PIIOccurrence) :
    ∀ (m : List (String × ValueGroup)), (∀ k g, mapGet m k = some g → VGLocal g) →
      ∀ k g, mapGet (occs.foldl (valueStep o) m) k = some g → VGLocal g := by
  induction occs with
  | nil => intro m hm; exact hm
  | cons occ rest ih =>
    intro m hm
    simp only [List.foldl_cons]
    apply ih
    intro k g hget
    simp only [valueStep] at hget
    by_cases hk : valKey o occ.candidate.value = k
    · subst hk
      rw [mapGet_mapSet_self] at hget
      have hg := (Option.some.injEq _ _).mp hget
      subst hg
      have h0 : VGLocal ((mapGet m (valKey o occ.candidate.value)).getD
          (emptyValueGroup occ.candidate)) := by
        cases h0get : mapGet m (valKey o occ.candidate.value) with
        | some w => simpa using hm _ w h0get
        | none => simp [VGLocal, emptyValueGroup]
      exact VGLocal_update occ _ _ h0 rfl rfl rfl
    · rw [mapGet_mapSet_ne _ _ _ _ hk] at hget
      exact hm k g hget

/-- Per-group bookkeeping invariant of the `groupByType` accumulator: every
stored representative value is the value of some detailed occurrence, the
stored values cover exactly the grouping keys of the detailed occurrence
list, and as long as no occurrence of the group carries the empty-string
value the stored values are duplicate-free under the grouping key (a stored
empty string is falsy for the JavaScript find guard, so a duplicate of its
key is pushed again). -/
def TGLocal (o : ResolutionOptions) (g : TypeGroup) : Prop :=
  (∀ v ∈ g.values, ∃ occ ∈ g.occurrences_detail, occ.candidate.value = v) ∧
  (∀ x, x ∈ g.values.map (valKey o) ↔
    x ∈ g.occurrences_detail.map (fun occ => valKey o occ.candidate.value)) ∧
  ((∀ occ ∈ g.occurrences_detail, occ.candidate.value ≠ "") →
    (g.values.map (valKey o)).Nodup)

theorem TGLocal_update (o : ResolutionOptions) (occ : PIIOccurrence) (g0 g1 : TypeGroup)
    (h : TGLocal o g0)
    (hvals : g1.values
      = if jsTruthy (g0.values.find? (fun v => valKey o v == valKey o occ.candidate.value))
        then g0.values
        else g0.values ++ [occ.candidate.value])
    (hdetail : g1.occurrences_detail = g0.occurrences_detail ++ [occ]) :
    TGLocal o g1 := by
  obtain ⟨hprov, hiff, hnd⟩ := h
  have hprov0 : ∀ v ∈ g0.values, ∃ o2 ∈ g1.occurrences_detail, o2.candidate.value = v := by
    intro v hv
    obtain ⟨o2, ho2, he⟩ := hprov v hv
    exact ⟨o2, by rw [hdetail]; exact List.mem_append_left _ ho2, he⟩
  have hne0 : (∀ o2 ∈ g1.occurrences_detail, o2.candidate.value ≠ "") →
      ∀ o2 ∈ g0.occurrences_detail, o2.candidate.value ≠ "" := by
    intro hne o2 ho2
    exact hne o2 (by rw [hdetail]; exact List.mem_append_left _ ho2)
  have hiff_push : g1.values = g0.values ++ [occ.candidate.value] →
      ∀ x, x ∈ g1.values.map (valKey o) ↔
        x ∈ g1.occurrences_detail.map (fun o2 => valKey o o2.candidate.value) := by
    intro hv x
    rw [hv, hdetail, List.map_append, List.map_append, List.mem_append, List.mem_append]
    constructor
    · rintro (hx | hx)
      · exact Or.inl ((hiff x).mp hx)
      · exact Or.inr (by simpa using hx)
    · rintro (hx | hx)
      · exact Or.inl ((hiff x).mpr hx)
      · exact Or.inr (by simpa using hx)
  have hprov_push : g1.values = g0.values ++ [occ.candidate.value] →
      ∀ v ∈ g1.values, ∃ o2 ∈ g1.occurrences_detail, o2.candidate.value = v := by
    intro hv w hw
    rw [hv, List.mem_append] at hw
    rcases hw with hw | hw
    · exact hprov0 w hw
    · rw [List.mem_singleton] at hw
      subst hw
      exact ⟨occ, by rw [hdetail]; exact List.mem_append_right _ (List.mem_singleton.mpr rfl),
        rfl⟩
  cases hfind : g0.values.find? (fun v => valKey o v == valKey o occ.candidate.value) with
  | none =>
    rw [hfind] at hvals
    simp only [jsTruthy] at hvals
    rw [if_neg (by simp)] at hvals
    have hfresh : valKey o occ.candidate.value ∉ g0.values.map (valKey o) := by
      intro hcontra
      rw [List.mem_map] at hcontra
      obtain ⟨v, hv, hveq⟩ := hcontra
      have hnone := List.find?_eq_none.mp hfind v hv
      simp [hveq] at hnone
    refine ⟨hprov_push hvals, hiff_push hvals, ?_⟩
    intro hne
    rw [hvals, List.map_append]
    simp [List.nodup_append, hnd (hne0 hne), hfresh]
  | some v =>
    have hvmem : v ∈ g0.values := List.mem_of_find?_eq_some hfind
    have hveq : valKey o v = valKey o occ.candidate.value := by
      have hp := List.find?_some hfind
      simpa using hp
    have hkeymem : valKey o occ.candidate.value ∈ g0.values.map (valKey o) :=
      List.mem_map.mpr ⟨v, hvmem, hveq⟩
    rw [hfind] at hvals
    by_cases hv0 : v = ""
    · subst hv0
      simp only [jsTruthy] at hvals
      rw [if_neg (by simp)] at hvals
      refine ⟨hprov_push hvals, hiff_push hvals, ?_⟩
      intro hne
      exfalso
      obtain ⟨o2, ho2, he⟩ := hprov "" hvmem
      exact hne o2 (by rw [hdetail]; exact List.mem_append_left _ ho2) he
    · have hvb : (v == "") = false := by
        simpa using hv0
      simp only [jsTruthy] at hvals
      rw [if_pos (by simp [hvb])] at hvals
      refine ⟨?_, ?_, ?_⟩
      · intro w hw
        rw [hvals] at hw
        exact hprov0 w hw
      · intro x
        rw [hvals, hdetail, List.map_append, List.mem_append]
        constructor
        · intro hx
          exact Or.inl ((hiff x).mp hx)
        · rintro (hx | hx)
          · exact (hiff x).mpr hx
          · have hx2 : x = valKey o occ.candidate.value := by simpa using hx
            subst hx2
            exact hkeymem
      · intro hne
        rw [hvals]
        exact hnd (hne0 hne)

theorem foldl_typeStep_local (o : ResolutionOptions) (occs : List PIIOccurrence) :
    ∀ (m : List (String × TypeGroup)), (∀ k g, mapGet m k = some g → TGLocal o g) →
      ∀ k g, mapGet (occs.foldl (typeStep o) m) k = some g → TGLocal o g := by
  induction occs with
  | nil => intro m hm; exact hm
  | cons occ rest ih =>
    intro m hm
    simp only [List.foldl_cons]
    apply ih
    intro k g hget
    simp only [typeStep] at hget
    by_cases hk : occ.candidate.pii_type = k
    · subst hk
      rw [mapGet_mapSet_self] at hget
      have hg := (Option.some.injEq _ _).mp hget
      subst hg
      have h0 : TGLocal o ((mapGet m occ.candidate.pii_type).getD
          (emptyTypeGroup occ.candidate.pii_type)) := by
        cases h0get : mapGet m occ.candidate.pii_type with
        | some w => simpa using hm _ w h0get
        | none => simp [TGLocal, emptyTypeGroup]
      exact TGLocal_update o occ _ _ h0 rfl rfl
    · rw [mapGet_mapSet_ne _ _ _ _ hk] at hget
      exact hm k g hget

/-! ## C3: ValueGroup flag invariants -/

/-- C3: for every value group produced by `resolve`, `has_type_conflict`
holds exactly when the group carries more than one distinct PII type, and
`is_ambiguous` holds exactly when there is a type conflict or some
occurrence of the group has medium or low confidence. -/
theorem valueGroup_invariants (records : List IndividualRecord)
    (occurrences : List PIIOccurrence) (options : ResolutionOptions)
    (res : PIIResolutionResult) (h : resolve records occurrences options = Except.ok res) :
    ∀ k g, (k, g) ∈ res.value_groups →
      (g.has_type_conflict = true ↔ 1 < g.pii_types.length) ∧
      (g.is_ambiguous = true ↔ (g.has_type_conflict = true ∨
        ∃ occ ∈ g.occurrences_detail,
          occ.candidate.confidence = Confidence.medium ∨
          occ.candidate.confidence = Confidence.low)) := by
  have hvg : res.value_groups = groupByValue occurrences options := by
    unfold resolve at h
    by_cases hr : records.length = 0
    · rw [if_pos hr] at h; cases h
    · rw [if_neg hr] at h
      have hres := (Except.ok.injEq _ _).mp h.symm
      subst hres
      rfl
  intro k g hmem
  rw [hvg] at hmem
  unfold groupByValue at hmem
  rw [List.mem_map] at hmem
  obtain ⟨⟨k1, g1⟩, hmem1, heq⟩ := hmem
  have hk : k1 = k := congrArg Prod.fst heq
  have hg : g = { g1 with
      is_ambiguous := decide (1 < g1.pii_types.length)
        || decide (0 < g1.confidence_breakdown.medium)
        || decide (0 < g1.confidence_breakdown.low),
      has_type_conflict := decide (1 < g1.pii_types.length) } :=
    (congrArg Prod.snd heq).symm
  have hlocal : VGLocal g1 := by
    apply foldl_valueStep_local options occurrences [] (by intro k g hcontra; cases hcontra) k1
    apply mapGet_of_mem_nodup _ _ _ ?_ hmem1
    exact foldl_valueStep_keys_nodup options occurrences [] (by simp [mapKeys])
  obtain ⟨hh, hmd, hl, hnd⟩ := hlocal
  subst hg
  constructor
  · simp
  · simp only [Bool.or_eq_true, decide_eq_true_eq]
    constructor
    · rintro ((htc | hm2) | hl2)
      · exact Or.inl (by simpa using htc)
      · refine Or.inr ?_
        rw [hmd] at hm2
        have := List.length_pos.mp hm2
        obtain ⟨occ, hocc⟩ := List.exists_mem_of_ne_nil _ this
        rw [List.mem_filter] at hocc
        exact ⟨occ, hocc.1, Or.inl (by simpa using hocc.2)⟩
      · refine Or.inr ?_
        rw [hl] at hl2
        have := List.length_pos.mp hl2
        obtain ⟨occ, hocc⟩ := List.exists_mem_of_ne_nil _ this
        rw [List.mem_filter] at hocc
        exact ⟨occ, hocc.1, Or.inr (by simpa using hocc.2)⟩
    · rintro (htc | ⟨occ, hocc, hconf⟩)
      · exact Or.inl (Or.inl (by simpa using htc))
      · rcases hconf with hconf | hconf
        · refine Or.inl (Or.inr ?_)
          rw [hmd]
          apply List.length_pos.mpr
          apply List.ne_nil_of_mem (a := occ)
          rw [List.mem_filter]
          exact ⟨hocc, by simp [hconf]⟩
        · refine Or.inr ?_
          rw [hl]
          apply List.length_pos.mpr
          apply List.ne_nil_of_mem (a := occ)
          rw [List.mem_filter]
          exact ⟨hocc, by simp [hconf]⟩

/-- A medium-confidence SSN occurrence used by the witnesses. -/
def wOcc1 : PIIOccurrence :=
  ⟨⟨"123-45-6789", "SSN", Confidence.medium, none⟩, "f1.txt", "p/f1.txt"⟩

/-- A low-confidence SSN occurrence with a different value. -/
def wOcc2 : PIIOccurrence :=
  ⟨⟨" 999 ", "SSN", Confidence.low, none⟩, "f2.txt", "p/f2.txt"⟩

/-- The value group produced for `wOcc1` alone. -/
def wValueGroup : ValueGroup :=
  { value := "123-45-6789", pii_types := ["SSN"], contexts := [], all_contexts := [],
    confidence_breakdown := ⟨0, 1, 0⟩, occurrences := 1, files := ["f1.txt"],
    occurrences_detail := [wOcc1], is_ambiguous := true, has_type_conflict := false }

/-- Witness for C3: the flag invariants evaluated on a concrete run. -/
theorem valueGroup_invariants_witness :
    ∃ r, resolve [emptyCandidateRecord] [wOcc1] defaultOptions = Except.ok r ∧
      ("123-45-6789", wValueGroup) ∈ r.value_groups ∧
      ((wValueGroup.has_type_conflict = true ↔ 1 < wValueGroup.pii_types.length) ∧
       (wValueGroup.is_ambiguous = true ↔ (wValueGroup.has_type_conflict = true ∨
         ∃ occ ∈ wValueGroup.occurrences_detail,
           occ.candidate.confidence = Confidence.medium ∨
           occ.candidate.confidence = Confidence.low))) := by
  refine ⟨_, rfl, ?_, ?_⟩
  · decide
  · exact valueGroup_invariants [emptyCandidateRecord] [wOcc1] defaultOptions _ rfl
      "123-45-6789" wValueGroup (by decide)

/-! ## C4: TypeGroup unique-value invariants -/

/-- C4 (amended): for every type group produced by `resolve`,
`unique_value_count` is the length of the stored representative value list
and `has_value_conflict` holds exactly when that count exceeds one; when no
occurrence of the group carries the empty-string value, the count is
exactly the number of distinct values of the group (distinctness judged on
the grouping key: normalized when `normalize_values` is set, raw
otherwise). With empty-string values present the count can exceed the
number of distinct values, because the JavaScript guard
`if (!existingValue)` treats a found empty string as falsy and pushes the
duplicate again. -/
theorem typeGroup_invariants (records : List IndividualRecord)
    (occurrences : List PIIOccurrence) (options : ResolutionOptions)
    (res : PIIResolutionResult) (h : resolve records occurrences options = Except.ok res) :
    ∀ k g, (k, g) ∈ res.type_groups →
      g.unique_value_count = g.values.length ∧
      (g.has_value_conflict = true ↔ 1 < g.unique_value_count) ∧
      ((∀ occ ∈ g.occurrences_detail, occ.candidate.value ≠ "") →
        g.unique_value_count
          = ((g.occurrences_detail.map
              (fun occ => valKey options occ.candidate.value)).dedup).length) := by
  have htg : res.type_groups = groupByType occurrences options := by
    unfold resolve at h
    by_cases hr : records.length = 0
    · rw [if_pos hr] at h; cases h
    · rw [if_neg hr] at h
      have hres := (Except.ok.injEq _ _).mp h.symm
      subst hres
      rfl
  intro k g hmem
  rw [htg] at hmem
  unfold groupByType at hmem
  rw [List.mem_map] at hmem
  obtain ⟨⟨k1, g1⟩, hmem1, heq⟩ := hmem
  have hg : g = { g1 with
      unique_value_count := g1.values.length,
      is_ambiguous := decide (1 < g1.values.length)
        || decide (0 < g1.confidence_breakdown.medium)
        || decide (0 < g1.confidence_breakdown.low),
      has_value_conflict := decide (1 < g1.values.length) } :=
    (congrArg Prod.snd heq).symm
  have hlocal : TGLocal options g1 := by
    apply foldl_typeStep_local options occurrences []
      (by intro k g hcontra; cases hcontra) k1
    apply mapGet_of_mem_nodup _ _ _ ?_ hmem1
    exact foldl_typeStep_keys_nodup options occurrences [] (by simp [mapKeys])
  obtain ⟨hprov, hiff, hndc⟩ := hlocal
  subst hg
  refine ⟨rfl, by simp, ?_⟩
  intro hne
  have hnd : (g1.values.map (valKey options)).Nodup :=
    hndc (fun o2 ho2 => hne o2 ho2)
  have hfin : (g1.values.map (valKey options)).toFinset
      = (g1.occurrences_detail.map (fun occ => valKey options occ.candidate.value)).toFinset := by
    apply Finset.ext
    intro x
    simp only [List.mem_toFinset]
    exact hiff x
  have hlen : g1.values.length
      = ((g1.occurrences_detail.map
          (fun occ => valKey options occ.candidate.value)).dedup).length := by
    calc g1.values.length = (g1.values.map (valKey options)).length :=
          (List.length_map _ _).symm
      _ = (g1.values.map (valKey options)).toFinset.card :=
          (List.toFinset_card_of_nodup hnd).symm
      _ = (g1.occurrences_detail.map
            (fun occ => valKey options occ.candidate.value)).toFinset.card := by rw [hfin]
      _ = _ := List.card_toFinset _
  exact hlen

/-- The type group produced for `wOcc1` and `wOcc2`. -/
def wTypeGroup : TypeGroup :=
  { pii_type := "SSN", values := ["123-45-6789", " 999 "], contexts := [],
    all_contexts := [], confidence_breakdown := ⟨0, 1, 1⟩, occurrences := 2,
    files := ["f1.txt", "f2.txt"], occurrences_detail := [wOcc1, wOcc2],
    is_ambiguous := true, has_value_conflict := true, unique_value_count := 2 }

/-- Witness for C4: the unique-value invariants evaluated on a concrete
run with two distinct nonempty values of one type, including the
distinct-count equality under the discharged no-empty-value hypothesis. -/
theorem typeGroup_invariants_witness :
    ∃ r, resolve [emptyCandidateRecord] [wOcc1, wOcc2] defaultOptions = Except.ok r ∧
      ("SSN", wTypeGroup) ∈ r.type_groups ∧
      (wTypeGroup.unique_value_count = wTypeGroup.values.length ∧
       (wTypeGroup.has_value_conflict = true ↔ 1 < wTypeGroup.unique_value_count) ∧
       wTypeGroup.unique_value_count
          = ((wTypeGroup.occurrences_detail.map
              (fun occ => valKey defaultOptions occ.candidate.value)).dedup).length) := by
  refine ⟨_, rfl, ?_, ?_, ?_, ?_⟩
  · decide
  · exact (typeGroup_invariants [emptyCandidateRecord] [wOcc1, wOcc2] defaultOptions _ rfl
      "SSN" wTypeGroup (by decide)).1
  · exact (typeGroup_invariants [emptyCandidateRecord] [wOcc1, wOcc2] defaultOptions _ rfl
      "SSN" wTypeGroup (by decide)).2.1
  · exact (typeGroup_invariants [emptyCandidateRecord] [wOcc1, wOcc2] defaultOptions _ rfl
      "SSN" wTypeGroup (by decide)).2.2 (by decide)

/-- An occurrence of the empty-string value of type SSN. -/
def wOccE : PIIOccurrence :=
  ⟨⟨"", "SSN", Confidence.medium, none⟩, "e.txt", "p/e.txt"⟩

/-- A record carrying two empty-string SSN candidates. -/
def emptyValueRecord : IndividualRecord :=
  { file_name := "e.txt", file_path := "p/e.txt", name := none,
    address := none, phone := none,
    pii_candidates := [⟨"", "SSN", Confidence.medium, none⟩,
      ⟨"", "SSN", Confidence.medium, none⟩] }

/-- A one-document corpus yielding the two empty-string occurrences. -/
def emptyValueCorpus : ExtractionResults :=
  { timestamp := "t", total_files_processed := 1, total_pii_found := 2,
    files := [emptyValueRecord] }

/-- The type group the code builds for the two empty-string occurrences:
the stored value list holds the empty string twice. -/
def wEmptyTypeGroup : TypeGroup :=
  { pii_type := "SSN", values := ["", ""], contexts := [], all_contexts := [],
    confidence_breakdown := ⟨0, 2, 0⟩, occurrences := 2, files := ["e.txt"],
    occurrences_detail := [wOccE, wOccE], is_ambiguous := true,
    has_value_conflict := true, unique_value_count := 2 }

/-- Counterexample for C4 as stated: two ingested occurrences of the
empty-string value under one type give `unique_value_count = 2` although
the group has exactly one distinct (normalized) value — the JavaScript
`find` returns the stored empty string, which is falsy under
`if (!existingValue)`, so the duplicate is pushed again. -/
theorem typeGroup_invariants_counterexample :
    loadFromExtractionResults emptyValueCorpus defaultOptions = [wOccE, wOccE] ∧
    ∃ r, resolve [emptyValueRecord] [wOccE, wOccE] defaultOptions = Except.ok r ∧
      ("SSN", wEmptyTypeGroup) ∈ r.type_groups ∧
      wEmptyTypeGroup.unique_value_count = 2 ∧
      ((wEmptyTypeGroup.occurrences_detail.map
          (fun occ => valKey defaultOptions occ.candidate.value)).dedup).length = 1 := by
  refine ⟨by decide, _, rfl, ?_, ?_, ?_⟩
  · decide
  · decide
  · decide

/-! ## C6: conflict emission -/

theorem groupByValue_mem (occs : List PIIOccurrence) (o : ResolutionOptions)
    (k : String) (g : ValueGroup) (hmem : (k, g) ∈ groupByValue occs o) :
    ∃ g1, mapGet (occs.foldl (valueStep o) []) k = some g1 ∧
      g = { g1 with
        is_ambiguous := decide (1 < g1.pii_types.length)
          || decide (0 < g1.confidence_breakdown.medium)
          || decide (0 < g1.confidence_breakdown.low),
        has_type_conflict := decide (1 < g1.pii_types.length) } := by
  unfold groupByValue at hmem
  rw [List.mem_map] at hmem
  obtain ⟨⟨k1, g1⟩, hmem1, heq⟩ := hmem
  have hk : k1 = k := congrArg Prod.fst heq
  subst hk
  refine ⟨g1, ?_, (congrArg Prod.snd heq).symm⟩
  apply mapGet_of_mem_nodup _ _ _ ?_ hmem1
  exact foldl_valueStep_keys_nodup o occs [] (by simp [mapKeys])

theorem groupByType_mem (occs : List PIIOccurrence) (o : ResolutionOptions)
    (k : String) (g : TypeGroup) (hmem : (k, g) ∈ groupByType occs o) :
    ∃ g1, mapGet (occs.foldl (typeStep o) []) k = some g1 ∧
      g = { g1 with
        unique_value_count := g1.values.length,
        is_ambiguous := decide (1 < g1.values.length)
          || decide (0 < g1.confidence_breakdown.medium)
          || decide (0 < g1.confidence_breakdown.low),
        has_value_conflict := decide (1 < g1.values.length) } := by
  unfold groupByType at hmem
  rw [List.mem_map] at hmem
  obtain ⟨⟨k1, g1⟩, hmem1, heq⟩ := hmem
  have hk : k1 = k := congrArg Prod.fst heq
  subst hk
  refine ⟨g1, ?_, (congrArg Prod.snd heq).symm⟩
  apply mapGet_of_mem_nodup _ _ _ ?_ hmem1
  exact foldl_typeStep_keys_nodup o occs [] (by simp [mapKeys])

/-- C6 (amended): `resolve` emits exactly one `value_type_mismatch`
conflict per conflicted value group (severity high above 2 distinct types,
medium otherwise), exactly one `type_value_mismatch` conflict per
conflicted type group with severity high above 3 stored representative
values and medium otherwise — the stored value list repeats an
empty-string value when one is present, so this threshold is not always
the number of distinct values — exactly one low-severity
`confidence_issue` conflict per low-confidence occurrence scoped to that
occurrence and its file, and nothing else. -/
theorem conflicts_emission (records : List IndividualRecord)
    (occurrences : List PIIOccurrence) (options : ResolutionOptions)
    (res : PIIResolutionResult) (h : resolve records occurrences options = Except.ok res) :
    (res.conflicts.countP (fun c => c.conflict_type == ConflictType.value_type_mismatch)
      = (res.value_groups.map Prod.snd).countP (fun g => g.has_type_conflict)) ∧
    (res.conflicts.countP (fun c => c.conflict_type == ConflictType.type_value_mismatch)
      = (res.type_groups.map Prod.snd).countP (fun g => g.has_value_conflict)) ∧
    (res.conflicts.countP (fun c => c.conflict_type == ConflictType.confidence_issue)
      = occurrences.countP (fun occ => occ.candidate.confidence == Confidence.low)) ∧
    (res.conflicts.length
      = (res.value_groups.map Prod.snd).countP (fun g => g.has_type_conflict)
        + (res.type_groups.map Prod.snd).countP (fun g => g.has_value_conflict)
        + occurrences.countP (fun occ => occ.candidate.confidence == Confidence.low)) ∧
    (∀ c ∈ res.conflicts, c.conflict_type = ConflictType.value_type_mismatch →
      ∃ g, (∃ k, (k, g) ∈ res.value_groups) ∧ g.has_type_conflict = true ∧
        g.pii_types.Nodup ∧ c.value = some g.value ∧ c.files = g.files ∧
        c.occurrences = g.occurrences_detail ∧
        c.severity = (if 2 < g.pii_types.length then Confidence.high else Confidence.medium)) ∧
    (∀ c ∈ res.conflicts, c.conflict_type = ConflictType.type_value_mismatch →
      ∃ g, (∃ k, (k, g) ∈ res.type_groups) ∧ g.has_value_conflict = true ∧
        g.values.length = g.unique_value_count ∧
        c.pii_type = some g.pii_type ∧ c.files = g.files ∧
        c.occurrences = g.occurrences_detail ∧
        c.severity = (if 3 < g.values.length then Confidence.high else Confidence.medium)) ∧
    (∀ c ∈ res.conflicts, c.conflict_type = ConflictType.confidence_issue →
      ∃ occ ∈ occurrences, occ.candidate.confidence = Confidence.low ∧
        c.severity = Confidence.low ∧ c.files = [occ.file_name] ∧ c.occurrences = [occ]) := by
  have hres : res = {
      value_groups := groupByValue occurrences options,
      type_groups := groupByType occurrences options,
      identity_groups := groupByIdentity records options,
      unified_schema := buildUnifiedSchema occurrences (groupByType occurrences options),
      conflicts := identifyConflicts occurrences (groupByValue occurrences options)
        (groupByType occurrences options),
      summary := {
        total_ambiguous_candidates := occurrences.length,
        total_value_groups := (groupByValue occurrences options).length,
        total_type_groups := (groupByType occurrences options).length,
        value_conflicts_count := (((groupByValue occurrences options).map Prod.snd).filter
          (fun g => g.has_type_conflict)).length,
        type_conflicts_count := (((groupByType occurrences options).map Prod.snd).filter
          (fun g => g.has_value_conflict)).length,
        total_conflicts := (identifyConflicts occurrences (groupByValue occurrences options)
          (groupByType occurrences options)).length,
        total_unified_types :=
          (buildUnifiedSchema occurrences (groupByType occurrences options)).length },
      options := options } := by
    unfold resolve at h
    by_cases hr : records.length = 0
    · rw [if_pos hr] at h; cases h
    · rw [if_neg hr] at h
      exact (Except.ok.injEq _ _).mp h.symm
  subst hres
  simp only
  have hcntA : ∀ (l : List ValueGroup),
      (l.map valueConflictOf).countP
        (fun c => c.conflict_type == ConflictType.value_type_mismatch) = l.length := by
    intro l
    rw [List.countP_map]
    simp [Function.comp, valueConflictOf]
  have hcntB0 : ∀ (l : List TypeGroup),
      (l.map typeConflictOf).countP
        (fun c => c.conflict_type == ConflictType.value_type_mismatch) = 0 := by
    intro l
    rw [List.countP_map]
    simp [Function.comp, typeConflictOf]
  have hcntC0 : ∀ (l : List PIIOccurrence),
      (l.map confidenceConflictOf).countP
        (fun c => c.conflict_type == ConflictType.value_type_mismatch) = 0 := by
    intro l
    rw [List.countP_map]
    simp [Function.comp, confidenceConflictOf]
  have hcntA2 : ∀ (l : List ValueGroup),
      (l.map valueConflictOf).countP
        (fun c => c.conflict_type == ConflictType.type_value_mismatch) = 0 := by
    intro l
    rw [List.countP_map]
    simp [Function.comp, valueConflictOf]
  have hcntB2 : ∀ (l : List TypeGroup),
      (l.map typeConflictOf).countP
        (fun c => c.conflict_type == ConflictType.type_value_mismatch) = l.length := by
    intro l
    rw [List.countP_map]
    simp [Function.comp, typeConflictOf]
  have hcntC2 : ∀ (l : List PIIOccurrence),
      (l.map confidenceConflictOf).countP
        (fun c => c.conflict_type == ConflictType.type_value_mismatch) = 0 := by
    intro l
    rw [List.countP_map]
    simp [Function.comp, confidenceConflictOf]
  have hcntA3 : ∀ (l : List ValueGroup),
      (l.map valueConflictOf).countP
        (fun c => c.conflict_type == ConflictType.confidence_issue) = 0 := by
    intro l
    rw [List.countP_map]
    simp [Function.comp, valueConflictOf]
  have hcntB3 : ∀ (l : List TypeGroup),
      (l.map typeConflictOf).countP
        (fun c => c.conflict_type == ConflictType.confidence_issue) = 0 := by
    intro l
    rw [List.countP_map]
    simp [Function.comp, typeConflictOf]
  have hcntC3 : ∀ (l : List PIIOccurrence),
      (l.map confidenceConflictOf).countP
        (fun c => c.conflict_type == ConflictType.confidence_issue) = l.length := by
    intro l
    rw [List.countP_map]
    simp [Function.comp, confidenceConflictOf]
  refine ⟨?_, ?_, ?_, ?_, ?_, ?_, ?_⟩
  · unfold identifyConflicts
    rw [List.countP_append, List.countP_append, hcntA, hcntB0, hcntC0,
      List.countP_eq_length_filter]
    simp
  · unfold identifyConflicts
    rw [List.countP_append, List.countP_append, hcntA2, hcntB2, hcntC2,
      List.countP_eq_length_filter]
    simp
  · unfold identifyConflicts
    rw [List.countP_append, List.countP_append, hcntA3, hcntB3, hcntC3,
      List.countP_eq_length_filter]
    simp
  · unfold identifyConflicts
    rw [List.length_append, List.length_append, List.length_map, List.length_map,
      List.length_map, List.countP_eq_length_filter, List.countP_eq_length_filter,
      List.countP_eq_length_filter]
  · intro c hc hct
    unfold identifyConflicts at hc
    rw [List.mem_append, List.mem_append] at hc
    rcases hc with (hc | hc) | hc
    · rw [List.mem_map] at hc
      obtain ⟨g, hgf, hcg⟩ := hc
      rw [List.mem_filter] at hgf
      obtain ⟨hgmem, htc⟩ := hgf
      rw [List.mem_map] at hgmem
      obtain ⟨⟨k, g2⟩, hkg, hg2⟩ := hgmem
      have hg2g : g2 = g := hg2
      subst hg2g
      obtain ⟨g1, hget1, hpost⟩ := groupByValue_mem occurrences options k g2 hkg
      have hnd : g2.pii_types.Nodup := by
        have hloc := foldl_valueStep_local options occurrences []
          (by intro a b hab; cases hab) k g1 hget1
        rw [hpost]
        exact hloc.2.2.2
      subst hcg
      exact ⟨g2, ⟨k, hkg⟩, htc, hnd, rfl, rfl, rfl, rfl⟩
    · rw [List.mem_map] at hc
      obtain ⟨g, hgf, hcg⟩ := hc
      subst hcg
      cases hct
    · rw [List.mem_map] at hc
      obtain ⟨occ, hof, hcg⟩ := hc
      subst hcg
      cases hct
  · intro c hc hct
    unfold identifyConflicts at hc
    rw [List.mem_append, List.mem_append] at hc
    rcases hc with (hc | hc) | hc
    · rw [List.mem_map] at hc
      obtain ⟨g, hgf, hcg⟩ := hc
      subst hcg
      cases hct
    · rw [List.mem_map] at hc
      obtain ⟨g, hgf, hcg⟩ := hc
      rw [List.mem_filter] at hgf
      obtain ⟨hgmem, hvc⟩ := hgf
      rw [List.mem_map] at hgmem
      obtain ⟨⟨k, g2⟩, hkg, hg2⟩ := hgmem
      have hg2g : g2 = g := hg2
      subst hg2g
      obtain ⟨g1, hget1, hpost⟩ := groupByType_mem occurrences options k g2 hkg
      have hcount : g2.values.length = g2.unique_value_count := by
        rw [hpost]
      subst hcg
      exact ⟨g2, ⟨k, hkg⟩, hvc, hcount, rfl, rfl, rfl, rfl⟩
    · rw [List.mem_map] at hc
      obtain ⟨occ, hof, hcg⟩ := hc
      subst hcg
      cases hct
  · intro c hc hct
    unfold identifyConflicts at hc
    rw [List.mem_append, List.mem_append] at hc
    rcases hc with (hc | hc) | hc
    · rw [List.mem_map] at hc
      obtain ⟨g, hgf, hcg⟩ := hc
      subst hcg
      cases hct
    · rw [List.mem_map] at hc
      obtain ⟨g, hgf, hcg⟩ := hc
      subst hcg
      cases hct
    · rw [List.mem_map] at hc
      obtain ⟨occ, hof, hcg⟩ := hc
      rw [List.mem_filter] at hof
      obtain ⟨homem, hlow⟩ := hof
      subst hcg
      exact ⟨occ, homem, by simpa using hlow, rfl, rfl, rfl⟩

/-- Witness for C6: the emission rules evaluated on a concrete run with one
medium and one low occurrence of the same type and distinct values
(one `type_value_mismatch` and one `confidence_issue`). -/
theorem conflicts_emission_witness :
    ∃ r, resolve [emptyCandidateRecord] [wOcc1, wOcc2] defaultOptions = Except.ok r ∧
      (r.conflicts.countP (fun c => c.conflict_type == ConflictType.value_type_mismatch)
        = (r.value_groups.map Prod.snd).countP (fun g => g.has_type_conflict) ∧
       r.conflicts.countP (fun c => c.conflict_type == ConflictType.type_value_mismatch)
        = (r.type_groups.map Prod.snd).countP (fun g => g.has_value_conflict) ∧
       r.conflicts.countP (fun c => c.conflict_type == ConflictType.confidence_issue)
        = [wOcc1, wOcc2].countP (fun occ => occ.candidate.confidence == Confidence.low)) := by
  refine ⟨_, rfl, ?_⟩
  have hfull := conflicts_emission [emptyCandidateRecord] [wOcc1, wOcc2] defaultOptions _ rfl
  exact ⟨hfull.1, hfull.2.1, hfull.2.2.1⟩

/-- A record carrying four empty-string SSN candidates. -/
def emptyValueRecord4 : IndividualRecord :=
  { file_name := "e.txt", file_path := "p/e.txt", name := none,
    address := none, phone := none,
    pii_candidates := [⟨"", "SSN", Confidence.medium, none⟩,
      ⟨"", "SSN", Confidence.medium, none⟩,
      ⟨"", "SSN", Confidence.medium, none⟩,
      ⟨"", "SSN", Confidence.medium, none⟩] }

/-- A one-document corpus yielding four empty-string occurrences. -/
def emptyValueCorpus4 : ExtractionResults :=
  { timestamp := "t", total_files_processed := 1, total_pii_found := 4,
    files := [emptyValueRecord4] }

/-- Counterexample for C6 as stated: four ingested occurrences of the
empty-string value under one type produce a `type_value_mismatch` conflict
of severity high although every type group of the run has exactly one
distinct (normalized) value — the severity threshold is applied to the
stored value list, which holds the empty string four times. -/
theorem conflicts_emission_counterexample :
    loadFromExtractionResults emptyValueCorpus4 defaultOptions
      = [wOccE, wOccE, wOccE, wOccE] ∧
    ∃ r, resolve [emptyValueRecord4] [wOccE, wOccE, wOccE, wOccE] defaultOptions
        = Except.ok r ∧
      (∃ c ∈ r.conflicts, c.conflict_type = ConflictType.type_value_mismatch ∧
        c.severity = Confidence.high) ∧
      ∀ p ∈ r.type_groups,
        ((p.2.occurrences_detail.map
            (fun occ => valKey defaultOptions occ.candidate.value)).dedup).length = 1 := by
  refine ⟨by decide, _, rfl, ?_, ?_⟩
  · decide
  · decide

/-! ## C8: the ingestion filter -/

/-- Whether a candidate value collides with one identity field of its own
record: the field is compared in trim-and-lowercased form (the code always
normalizes the record fields before comparison), and a field whose
trim-and-lowercased form is empty never blocks, because the guard
`normalizedName && candidateValue === normalizedName` short-circuits on
the falsy empty string. -/
def fieldBlocksSpec (field : Option String) (candidateValue : String) : Bool :=
  match field with
  | some s => if normalizeValue s = "" then false else candidateValue == normalizeValue s
  | none => false

/-- Spec-side retention predicate for C8 (as amended): keep a candidate iff
its type does not match the identity lexicon by case-insensitive substring,
its (optionally normalized) value differs from the trim-and-lowercased
identity fields of its own record whose trim-and-lowercased form is
non-empty (a missing, empty or whitespace-only field never blocks), it is
not dropped by `ambiguous_only`, and it meets `min_confidence`
(low < medium < high). -/
def retainedSpec (file : IndividualRecord) (o : ResolutionOptions) (c : PIICandidate) : Bool :=
  !(identityTypesList.any (fun t => jsIncludes (jsToLower c.pii_type) t))
    && !(fieldBlocksSpec file.name (if o.normalize_values then normalizeValue c.value else c.value)
          || fieldBlocksSpec file.address
              (if o.normalize_values then normalizeValue c.value else c.value)
          || fieldBlocksSpec file.phone
              (if o.normalize_values then normalizeValue c.value else c.value))
    && !(o.ambiguous_only && c.confidence == Confidence.high)
    && (match o.min_confidence with
        | some m => decide (confidenceOrder m ≤ confidenceOrder c.confidence)
        | none => true)

/-- The literal reading of C8 as stated: the candidate value is compared
against the raw identity fields of the record. -/
def fieldBlocksLiteral (field : Option String) (candidateValue : String) : Bool :=
  match field with
  | some s => candidateValue == s
  | none => false

/-- Retention predicate under the literal reading of C8. -/
def retainedLiteralClaim (file : IndividualRecord) (o : ResolutionOptions)
    (c : PIICandidate) : Bool :=
  !(identityTypesList.any (fun t => jsIncludes (jsToLower c.pii_type) t))
    && !(fieldBlocksLiteral file.name
            (if o.normalize_values then normalizeValue c.value else c.value)
          || fieldBlocksLiteral file.address
              (if o.normalize_values then normalizeValue c.value else c.value)
          || fieldBlocksLiteral file.phone
              (if o.normalize_values then normalizeValue c.value else c.value))
    && !(o.ambiguous_only && c.confidence == Confidence.high)
    && (match o.min_confidence with
        | some m => decide (confidenceOrder m ≤ confidenceOrder c.confidence)
        | none => true)

theorem matchesField_eq_fieldBlocksSpec (f : Option String) (cv : String) :
    matchesField (identityFieldKey f) cv = fieldBlocksSpec f cv := by
  cases f with
  | none => rfl
  | some s =>
    by_cases hs : s = ""
    · subst hs
      rfl
    · by_cases hn : normalizeValue s = "" <;>
        simp [identityFieldKey, matchesField, fieldBlocksSpec, hs, hn]

theorem keepCandidate_eq_retainedSpec (file : IndividualRecord) (o : ResolutionOptions)
    (c : PIICandidate) : keepCandidate file o c = retainedSpec file o c := by
  unfold keepCandidate retainedSpec isIdentityType valKey
  rw [matchesField_eq_fieldBlocksSpec, matchesField_eq_fieldBlocksSpec,
    matchesField_eq_fieldBlocksSpec]
  by_cases hA : identityTypesList.any (fun t => jsIncludes (jsToLower c.pii_type) t) = true
  · simp [hA]
  · rw [Bool.not_eq_true] at hA
    simp only [hA, if_false, Bool.not_false, Bool.true_and]
    by_cases hB : (fieldBlocksSpec file.name
          (if o.normalize_values then normalizeValue c.value else c.value)
        || fieldBlocksSpec file.address
            (if o.normalize_values then normalizeValue c.value else c.value)
        || fieldBlocksSpec file.phone
            (if o.normalize_values then normalizeValue c.value else c.value)) = true
    · simp [hB]
    · rw [Bool.not_eq_true] at hB
      simp only [hB, if_false, Bool.not_false, Bool.true_and]
      by_cases hC : (o.ambiguous_only && (c.confidence == Confidence.high)) = true
      · simp [hC]
      · rw [Bool.not_eq_true] at hC
        simp only [hC, if_false, Bool.not_false, Bool.true_and]
        cases o.min_confidence with
        | none => rfl
        | some m =>
          by_cases hD : confidenceOrder c.confidence < confidenceOrder m
          · simp [hD, Nat.not_le.mpr hD]
          · simp [hD, Nat.le_of_not_lt hD]

/-- C8 (amended): a candidate of a record becomes a retained occurrence
exactly when it passes the four ingestion filters, with the own-identity
comparison made against the trim-and-lowercased identity fields of that
same record whose trim-and-lowercased form is non-empty — a missing, empty
or whitespace-only field never causes exclusion, and other records never
cause exclusion. -/
theorem ingestion_filter (results : ExtractionResults) (o : ResolutionOptions) :
    loadFromExtractionResults results o
      = results.files.flatMap (fun file =>
          (file.pii_candidates.filter (retainedSpec file o)).map
            (fun c => ⟨c, file.file_name, file.file_path⟩)) := by
  unfold loadFromExtractionResults
  have hfn : (fun file : IndividualRecord =>
      (file.pii_candidates.filter (keepCandidate file o)).map
        (fun c => (⟨c, file.file_name, file.file_path⟩ : PIIOccurrence)))
      = (fun file : IndividualRecord =>
      (file.pii_candidates.filter (retainedSpec file o)).map
        (fun c => (⟨c, file.file_name, file.file_path⟩ : PIIOccurrence))) := by
    funext file
    have hp : keepCandidate file o = retainedSpec file o :=
      funext (keepCandidate_eq_retainedSpec file o)
    rw [hp]
  rw [hfn]

/-- A record whose name is spelled with an uppercase letter. -/
def strictRecord : IndividualRecord :=
  { file_name := "f.txt", file_path := "p/f.txt", name := some "John",
    address := none, phone := none,
    pii_candidates := [⟨"john", "SSN", Confidence.high, none⟩] }

/-- A one-record corpus for the C8 counterexample. -/
def strictCorpus : ExtractionResults :=
  { timestamp := "t", total_files_processed := 1, total_pii_found := 1,
    files := [strictRecord] }

/-- Options with value normalization off. -/
def rawOptions : ResolutionOptions :=
  { ambiguous_only := false, min_confidence := none,
    include_high_confidence_in_conflicts := false, normalize_values := false }

/-- Counterexample for C8 as stated: with `normalize_values` off, a
candidate whose raw value `"john"` differs from the raw record name
`"John"` passes every condition of the claim, yet the code drops it,
because the comparison is made against the normalized record name. -/
theorem ingestion_filter_counterexample :
    retainedLiteralClaim strictRecord rawOptions ⟨"john", "SSN", Confidence.high, none⟩ = true ∧
    loadFromExtractionResults strictCorpus rawOptions = [] := by
  decide

/-! ## C2: canonical-schema variations -/

theorem mapGet_mem (m : List (String × α)) (k : String) (v : α)
    (h : mapGet m k = some v) : (k, v) ∈ m := by
  induction m with
  | nil => cases h
  | cons p rest ih =>
    obtain ⟨k1, v1⟩ := p
    by_cases hk : k1 = k
    · subst hk
      simp only [mapGet, if_pos rfl] at h
      have hv := (Option.some.injEq _ _).mp h
      subst hv
      exact List.mem_cons_self _ _
    · simp only [mapGet, if_neg hk] at h
      exact List.mem_cons_of_mem _ (ih h)

theorem mapSet_eq_append_of_isNone (m : List (String × α)) (k : String) (v : α)
    (h : mapGet m k = none) : mapSet m k v = m ++ [(k, v)] := by
  induction m with
  | nil => rfl
  | cons p rest ih =>
    obtain ⟨k1, v1⟩ := p
    by_cases hk : k1 = k
    · simp [mapGet, hk] at h
    · simp only [mapGet, if_neg hk] at h
      simp [mapSet, hk, ih h]

theorem mapGet_append (m1 m2 : List (String × α)) (k : String) :
    mapGet (m1 ++ m2) k
      = match mapGet m1 k with
        | some v => some v
        | none => mapGet m2 k := by
  induction m1 with
  | nil => simp [mapGet]
  | cons p rest ih =>
    obtain ⟨k1, v1⟩ := p
    by_cases hk : k1 = k
    · simp [mapGet, hk]
    · simp only [List.cons_append, mapGet, if_neg hk]
      exact ih

/-- Membership in the relation set stored under `t`. -/
def relMem (R : List (String × List String)) (t s : String) : Prop :=
  s ∈ (mapGet R t).getD []

theorem relMem_relAdd (R : List (String × List String)) (t s t1 s1 : String) :
    relMem (relAdd R t s) t1 s1 ↔
      relMem R t1 s1 ∨ (t1 = t ∧ s1 = s ∧ (mapGet R t).isSome) := by
  unfold relAdd relMem
  cases hget : mapGet R t with
  | none => simp [hget]
  | some l =>
    by_cases ht : t = t1
    · subst ht
      rw [mapGet_mapSet_self, hget]
      simp only [Option.getD_some]
      by_cases hs : s ∈ l
      · rw [if_pos hs]
        constructor
        · intro h
          exact Or.inl h
        · rintro (h | ⟨-, h2, -⟩)
          · exact h
          · rw [h2]
            exact hs
      · rw [if_neg hs, List.mem_append, List.mem_singleton]
        constructor
        · rintro (h | h)
          · exact Or.inl h
          · exact Or.inr ⟨by simp, h, by simp⟩
        · rintro (h | ⟨-, h2, -⟩)
          · exact Or.inl h
          · exact Or.inr h2
    · rw [mapGet_mapSet_ne _ _ _ _ ht]
      simp [Ne.symm ht]

theorem relAdd_isSome (R : List (String × List String)) (t s u : String) :
    (mapGet (relAdd R t s) u).isSome = (mapGet R u).isSome := by
  unfold relAdd
  cases hget : mapGet R t with
  | none => rfl
  | some l =>
    by_cases ht : t = u
    · subst ht
      rw [mapGet_mapSet_self, hget]
      rfl
    · rw [mapGet_mapSet_ne _ _ _ _ ht]

theorem relMem_relEnsure (R : List (String × List String)) (t t1 s1 : String) :
    relMem (relEnsure R t) t1 s1 ↔ relMem R t1 s1 := by
  unfold relEnsure relMem
  by_cases hsome : (mapGet R t).isSome
  · simp [hsome]
  · simp only [hsome, if_neg, Bool.false_eq_true, if_false]
    by_cases ht : t = t1
    · subst ht
      rw [mapGet_mapSet_self]
      cases hget : mapGet R t with
      | none => simp
      | some l => rw [hget] at hsome; simp at hsome
    · rw [mapGet_mapSet_ne _ _ _ _ ht]

theorem relEnsure_isSome (R : List (String × List String)) (t u : String) :
    (mapGet (relEnsure R t) u).isSome = ((mapGet R u).isSome || (t == u)) := by
  unfold relEnsure
  by_cases hsome : (mapGet R t).isSome
  · simp only [hsome, if_pos, if_true]
    by_cases ht : t = u
    · subst ht
      simp [hsome]
    · simp [ht]
  · simp only [hsome, if_neg, Bool.false_eq_true, if_false]
    by_cases ht : t = u
    · subst ht
      rw [mapGet_mapSet_self]
      simp
    · rw [mapGet_mapSet_ne _ _ _ _ ht]
      simp [ht]

/-- The inner `for type2` loop of `buildUnifiedSchema`. -/
def relInner (R : List (String × List String)) (t1 : String) (ts : List String) :
    List (String × List String) :=
  ts.foldl (fun R2 t2 => if t1 ≠ t2 then relAdd R2 t1 t2 else R2) R

theorem relInner_isSome (t1 : String) (ts : List String) :
    ∀ (R : List (String × List String)) (u : String),
      (mapGet (relInner R t1 ts) u).isSome = (mapGet R u).isSome := by
  induction ts with
  | nil => intro R u; rfl
  | cons t2 rest ih =>
    intro R u
    unfold relInner
    simp only [List.foldl_cons]
    by_cases hne : t1 ≠ t2
    · rw [if_pos hne]
      rw [show (rest.foldl (fun R2 t2 => if t1 ≠ t2 then relAdd R2 t1 t2 else R2)
          (relAdd R t1 t2)) = relInner (relAdd R t1 t2) t1 rest from rfl]
      rw [ih (relAdd R t1 t2) u, relAdd_isSome]
    · rw [if_neg hne]
      exact ih R u

theorem relMem_relInner (t1 : String) (ts : List String) :
    ∀ (R : List (String × List String)), (mapGet R t1).isSome →
      ∀ t s, relMem (relInner R t1 ts) t s ↔
        relMem R t s ∨ (t = t1 ∧ s ∈ ts ∧ s ≠ t1) := by
  induction ts with
  | nil =>
    intro R hR t s
    simp [relInner]
  | cons t2 rest ih =>
    intro R hR t s
    unfold relInner
    simp only [List.foldl_cons]
    by_cases hne : t1 ≠ t2
    · rw [if_pos hne]
      rw [show (rest.foldl (fun R2 t2 => if t1 ≠ t2 then relAdd R2 t1 t2 else R2)
          (relAdd R t1 t2)) = relInner (relAdd R t1 t2) t1 rest from rfl]
      rw [ih (relAdd R t1 t2) (by rw [relAdd_isSome]; exact hR) t s, relMem_relAdd]
      constructor
      · rintro ((h | ⟨h1, h2, _⟩) | ⟨h1, h2, h3⟩)
        · exact Or.inl h
        · subst h1; subst h2
          exact Or.inr ⟨rfl, List.mem_cons_self _ _, Ne.symm hne⟩
        · exact Or.inr ⟨h1, List.mem_cons_of_mem _ h2, h3⟩
      · rintro (h | ⟨h1, h2, h3⟩)
        · exact Or.inl (Or.inl h)
        · subst h1
          rcases List.mem_cons.mp h2 with h2 | h2
          · subst h2
            exact Or.inl (Or.inr ⟨rfl, rfl, hR⟩)
          · exact Or.inr ⟨rfl, h2, h3⟩
    · rw [if_neg hne]
      rw [show (rest.foldl (fun R2 t2 => if t1 ≠ t2 then relAdd R2 t1 t2 else R2) R)
        = relInner R t1 rest from rfl]
      rw [Ne, not_not] at hne
      subst hne
      rw [ih R hR t s]
      constructor
      · rintro (h | ⟨h1, h2, h3⟩)
        · exact Or.inl h
        · exact Or.inr ⟨h1, List.mem_cons_of_mem _ h2, h3⟩
      · rintro (h | ⟨h1, h2, h3⟩)
        · exact Or.inl h
        · subst h1
          rcases List.mem_cons.mp h2 with h2 | h2
          · exact absurd h2 h3
          · exact Or.inr ⟨rfl, h2, h3⟩

theorem relAddGroup_eq_foldl (R : List (String × List String)) (ts : List String) :
    relAddGroup R ts
      = ts.foldl (fun R1 t1 => relInner (relEnsure R1 t1) t1 ts) R := rfl

theorem relMem_foldl_group (ts : List String) :
    ∀ (l : List String) (R : List (String × List String)) (t s : String),
      relMem (l.foldl (fun R1 t1 => relInner (relEnsure R1 t1) t1 ts) R) t s ↔
        relMem R t s ∨ (t ∈ l ∧ s ∈ ts ∧ s ≠ t) := by
  intro l
  induction l with
  | nil => intro R t s; simp
  | cons t1 rest ih =>
    intro R t s
    simp only [List.foldl_cons]
    rw [ih]
    rw [relMem_relInner t1 ts (relEnsure R t1)
      (by rw [relEnsure_isSome]; simp) t s]
    rw [relMem_relEnsure]
    constructor
    · rintro ((h | ⟨h1, h2, h3⟩) | ⟨h1, h2, h3⟩)
      · exact Or.inl h
      · subst h1
        exact Or.inr ⟨List.mem_cons_self _ _, h2, h3⟩
      · exact Or.inr ⟨List.mem_cons_of_mem _ h1, h2, h3⟩
    · rintro (h | ⟨h1, h2, h3⟩)
      · exact Or.inl (Or.inl h)
      · rcases List.mem_cons.mp h1 with h1 | h1
        · subst h1
          exact Or.inl (Or.inr ⟨rfl, h2, h3⟩)
        · exact Or.inr ⟨h1, h2, h3⟩

theorem relMem_relAddGroup (R : List (String × List String)) (ts : List String)
    (t s : String) :
    relMem (relAddGroup R ts) t s ↔ relMem R t s ∨ (t ∈ ts ∧ s ∈ ts ∧ s ≠ t) := by
  rw [relAddGroup_eq_foldl]
  exact relMem_foldl_group ts ts R t s

theorem relMem_seed (occs : List PIIOccurrence) (t s : String) :
    ¬ relMem (occs.foldl (fun R occ => relEnsure R occ.candidate.pii_type) []) t s := by
  have hgen : ∀ (l : List PIIOccurrence) (R : List (String × List String)),
      (¬ relMem R t s) →
      ¬ relMem (l.foldl (fun R occ => relEnsure R occ.candidate.pii_type) R) t s := by
    intro l
    induction l with
    | nil => intro R h; exact h
    | cons occ rest ih =>
      intro R h
      simp only [List.foldl_cons]
      apply ih
      rw [relMem_relEnsure]
      exact h
  apply hgen occs []
  simp [relMem, mapGet]

theorem relMem_typeRelationsOf (occs : List PIIOccurrence) (t s : String) :
    relMem (typeRelationsOf occs) t s ↔
      ∃ kg ∈ groupByValue occs schemaGroupOptions,
        1 < kg.2.pii_types.length ∧ t ∈ kg.2.pii_types ∧ s ∈ kg.2.pii_types ∧ s ≠ t := by
  have hgen : ∀ (l : List (String × ValueGroup)) (R : List (String × List String)),
      relMem (l.foldl (fun R kg =>
        if 1 < kg.2.pii_types.length then relAddGroup R kg.2.pii_types else R) R) t s ↔
      relMem R t s ∨ ∃ kg ∈ l, 1 < kg.2.pii_types.length ∧ t ∈ kg.2.pii_types ∧
        s ∈ kg.2.pii_types ∧ s ≠ t := by
    intro l
    induction l with
    | nil => intro R; simp
    | cons kg rest ih =>
      intro R
      simp only [List.foldl_cons]
      by_cases hlen : 1 < kg.2.pii_types.length
      · rw [if_pos hlen, ih, relMem_relAddGroup]
        constructor
        · rintro ((h | ⟨h1, h2, h3⟩) | ⟨kg2, h1, h2⟩)
          · exact Or.inl h
          · exact Or.inr ⟨kg, List.mem_cons_self _ _, hlen, h1, h2, h3⟩
          · exact Or.inr ⟨kg2, List.mem_cons_of_mem _ h1, h2⟩
        · rintro (h | ⟨kg2, h1, h2⟩)
          · exact Or.inl (Or.inl h)
          · rcases List.mem_cons.mp h1 with h1 | h1
            · subst h1
              exact Or.inl (Or.inr ⟨h2.2.1, h2.2.2.1, h2.2.2.2⟩)
            · exact Or.inr ⟨kg2, h1, h2⟩
      · rw [if_neg hlen, ih]
        constructor
        · rintro (h | ⟨kg2, h1, h2⟩)
          · exact Or.inl h
          · exact Or.inr ⟨kg2, List.mem_cons_of_mem _ h1, h2⟩
        · rintro (h | ⟨kg2, h1, h2⟩)
          · exact Or.inl h
          · rcases List.mem_cons.mp h1 with h1 | h1
            · subst h1
              exact absurd h2.1 hlen
            · exact Or.inr ⟨kg2, h1, h2⟩
  unfold typeRelationsOf
  rw [hgen]
  constructor
  · rintro (h | h)
    · exact absurd h (relMem_seed occs t s)
    · exact h
  · intro h
    exact Or.inr h

theorem valKey_schemaGroupOptions (v : String) :
    valKey schemaGroupOptions v = normalizeValue v := rfl

theorem vgrel_types_update (occ : PIIOccurrence) (g0 g1 : ValueGroup)
    (hpt : g1.pii_types = if occ.candidate.pii_type ∈ g0.pii_types then g0.pii_types
      else g0.pii_types ++ [occ.candidate.pii_type]) :
    ∀ t, t ∈ g1.pii_types ↔ (t ∈ g0.pii_types ∨ t = occ.candidate.pii_type) := by
  intro t
  rw [hpt]
  by_cases hm : occ.candidate.pii_type ∈ g0.pii_types
  · rw [if_pos hm]
    constructor
    · intro h
      exact Or.inl h
    · rintro (h | h)
      · exact h
      · rw [h]
        exact hm
  · rw [if_neg hm]
    simp [List.mem_append]

/-- Relational invariant of the `groupByValue` accumulator: a key is
present exactly when some processed occurrence has that grouping key, and
the type list of the group under a key collects exactly the types observed
at that key. -/
theorem foldl_valueStep_rel (o : ResolutionOptions) (occs : List PIIOccurrence) :
    (∀ k, (mapGet (occs.foldl (valueStep o) []) k).isSome ↔
      ∃ occ ∈ occs, valKey o occ.candidate.value = k) ∧
    (∀ k g, mapGet (occs.foldl (valueStep o) []) k = some g →
      ∀ t, t ∈ g.pii_types ↔
        ∃ occ ∈ occs, valKey o occ.candidate.value = k ∧ occ.candidate.pii_type = t) := by
  induction occs using List.reverseRecOn with
  | nil =>
    constructor
    · intro k
      simp [mapGet]
    · intro k g h
      cases h
  | append_singleton l occ ih =>
    obtain ⟨ihp, iht⟩ := ih
    rw [List.foldl_append]
    simp only [List.foldl_cons, List.foldl_nil]
    constructor
    · intro k
      by_cases hk : valKey o occ.candidate.value = k
      · subst hk
        simp only [valueStep]
        rw [mapGet_mapSet_self]
        simp only [Option.isSome_some, true_iff]
        exact ⟨occ, by simp, rfl⟩
      · simp only [valueStep]
        rw [mapGet_mapSet_ne _ _ _ _ hk, ihp k]
        constructor
        · rintro ⟨occ2, h1, h2⟩
          exact ⟨occ2, by simp [h1], h2⟩
        · rintro ⟨occ2, h1, h2⟩
          rcases List.mem_append.mp h1 with h1 | h1
          · exact ⟨occ2, h1, h2⟩
          · rw [List.mem_singleton] at h1
            subst h1
            exact absurd h2 hk
    · intro k g hget t
      simp only [valueStep] at hget
      by_cases hk : valKey o occ.candidate.value = k
      · subst hk
        rw [mapGet_mapSet_self] at hget
        have hg := (Option.some.injEq _ _).mp hget
        subst hg
        refine Iff.trans (vgrel_types_update occ
          ((mapGet (l.foldl (valueStep o) []) (valKey o occ.candidate.value)).getD
            (emptyValueGroup occ.candidate)) _ rfl t) ?_
        cases h0 : mapGet (l.foldl (valueStep o) []) (valKey o occ.candidate.value) with
        | some g0 =>
          simp only [Option.getD_some]
          rw [iht (valKey o occ.candidate.value) g0 h0 t]
          constructor
          · rintro (⟨occ2, h1, h2, h3⟩ | h)
            · exact ⟨occ2, List.mem_append_left _ h1, h2, h3⟩
            · exact ⟨occ, List.mem_append_right _ (List.mem_singleton_self _), rfl, h.symm⟩
          · rintro ⟨occ2, h1, h2, h3⟩
            rcases List.mem_append.mp h1 with h1 | h1
            · exact Or.inl ⟨occ2, h1, h2, h3⟩
            · rw [List.mem_singleton] at h1
              subst h1
              exact Or.inr h3.symm
        | none =>
          simp only [Option.getD_none, emptyValueGroup, List.not_mem_nil, false_or]
          have hno : ¬ ∃ occ2 ∈ l, valKey o occ2.candidate.value
              = valKey o occ.candidate.value := by
            intro hcontra
            have := (ihp (valKey o occ.candidate.value)).mpr hcontra
            rw [h0] at this
            simp at this
          constructor
          · intro h
            exact ⟨occ, List.mem_append_right _ (List.mem_singleton_self _), rfl, h.symm⟩
          · rintro ⟨occ2, h1, h2, h3⟩
            rcases List.mem_append.mp h1 with h1 | h1
            · exact absurd ⟨occ2, h1, h2⟩ hno
            · rw [List.mem_singleton] at h1
              subst h1
              exact h3.symm
      · rw [mapGet_mapSet_ne _ _ _ _ hk] at hget
        rw [iht k g hget t]
        constructor
        · rintro ⟨occ2, h1, h2, h3⟩
          exact ⟨occ2, List.mem_append_left _ h1, h2, h3⟩
        · rintro ⟨occ2, h1, h2, h3⟩
          rcases List.mem_append.mp h1 with h1 | h1
          · exact ⟨occ2, h1, h2, h3⟩
          · rw [List.mem_singleton] at h1
            subst h1
            exact absurd h2 hk

theorem one_lt_length_of_two_mem (l : List String) (a b : String)
    (ha : a ∈ l) (hb : b ∈ l) (hab : a ≠ b) : 1 < l.length := by
  cases l with
  | nil => cases ha
  | cons x rest =>
    cases rest with
    | nil =>
      rw [List.mem_singleton] at ha hb
      subst ha
      subst hb
      exact absurd rfl hab
    | cons y rest2 =>
      simp only [List.length_cons]
      omega

theorem length_le_one_of_nodup_allEq (l : List String) (hnd : l.Nodup)
    (hall : ∀ a ∈ l, ∀ b ∈ l, a = b) : l.length ≤ 1 := by
  cases l with
  | nil => simp
  | cons x rest =>
    cases rest with
    | nil => simp
    | cons y rest2 =>
      have hxy : x = y := hall x (by simp) y (by simp)
      rw [List.nodup_cons] at hnd
      exact absurd (by rw [hxy]; simp) hnd.1

theorem mem_insertSorted (x : String) (l : List String) (s : String) :
    s ∈ insertSorted x l ↔ s = x ∨ s ∈ l := by
  induction l with
  | nil => simp [insertSorted]
  | cons y ys ih =>
    unfold insertSorted
    by_cases hle : strLe x y
    · simp [hle]
    · simp only [hle, Bool.false_eq_true, if_false, List.mem_cons, ih]
      constructor
      · rintro (h | h | h)
        · exact Or.inr (Or.inl h)
        · exact Or.inl h
        · exact Or.inr (Or.inr h)
      · rintro (h | h | h)
        · exact Or.inr (Or.inl h)
        · exact Or.inl h
        · exact Or.inr (Or.inr h)

theorem length_insertSorted (x : String) (l : List String) :
    (insertSorted x l).length = l.length + 1 := by
  induction l with
  | nil => rfl
  | cons y ys ih =>
    unfold insertSorted
    by_cases hle : strLe x y
    · simp [hle]
    · simp [hle, ih]

theorem nodup_insertSorted (x : String) (l : List String) (hx : x ∉ l) (h : l.Nodup) :
    (insertSorted x l).Nodup := by
  induction l with
  | nil => simp [insertSorted]
  | cons y ys ih =>
    unfold insertSorted
    rw [List.mem_cons] at hx
    push_neg at hx
    rw [List.nodup_cons] at h
    by_cases hle : strLe x y
    · rw [if_pos hle]
      rw [List.nodup_cons, List.nodup_cons]
      exact ⟨by simp [hx.1, hx.2], h⟩
    · rw [if_neg hle, List.nodup_cons]
      constructor
      · rw [mem_insertSorted]
        rintro (hc | hc)
        · exact hx.1 hc.symm
        · exact h.1 hc
      · exact ih hx.2 h.2

theorem mem_sortStrings (l : List String) (s : String) :
    s ∈ sortStrings l ↔ s ∈ l := by
  induction l with
  | nil => simp [sortStrings]
  | cons x xs ih =>
    unfold sortStrings at ih ⊢
    simp only [List.foldr_cons]
    rw [mem_insertSorted, ih, List.mem_cons]

theorem length_sortStrings (l : List String) :
    (sortStrings l).length = l.length := by
  induction l with
  | nil => rfl
  | cons x xs ih =>
    unfold sortStrings at ih ⊢
    simp only [List.foldr_cons]
    rw [length_insertSorted, ih, List.length_cons]

theorem nodup_sortStrings (l : List String) (h : l.Nodup) :
    (sortStrings l).Nodup := by
  induction l with
  | nil => simp [sortStrings]
  | cons x xs ih =>
    unfold sortStrings at ih ⊢
    simp only [List.foldr_cons]
    rw [List.nodup_cons] at h
    apply nodup_insertSorted
    · rw [show (xs.foldr insertSorted [] : List String) = sortStrings xs from rfl,
        mem_sortStrings]
      exact h.1
    · exact ih h.2

/-- Every relation set in the map is duplicate-free. -/
def relNodup (R : List (String × List String)) : Prop :=
  ∀ u, ((mapGet R u).getD []).Nodup

theorem relNodup_relAdd (R : List (String × List String)) (t s : String)
    (h : relNodup R) : relNodup (relAdd R t s) := by
  intro u
  unfold relAdd
  cases hget : mapGet R t with
  | none => exact h u
  | some l =>
    by_cases ht : t = u
    · subst ht
      rw [mapGet_mapSet_self]
      have hl : l.Nodup := by
        have := h t
        rw [hget] at this
        simpa using this
      by_cases hs : s ∈ l
      · simpa [hs] using hl
      · simp [hs, List.nodup_append, hl]
    · rw [mapGet_mapSet_ne _ _ _ _ ht]
      exact h u

theorem relNodup_relEnsure (R : List (String × List String)) (t : String)
    (h : relNodup R) : relNodup (relEnsure R t) := by
  intro u
  unfold relEnsure
  by_cases hsome : (mapGet R t).isSome
  · simp only [hsome, if_pos, if_true]
    exact h u
  · simp only [hsome, Bool.false_eq_true, if_false]
    by_cases ht : t = u
    · subst ht
      rw [mapGet_mapSet_self]
      simp
    · rw [mapGet_mapSet_ne _ _ _ _ ht]
      exact h u

theorem relNodup_relInner (t1 : String) (ts : List String) :
    ∀ (R : List (String × List String)), relNodup R → relNodup (relInner R t1 ts) := by
  induction ts with
  | nil => intro R h; exact h
  | cons t2 rest ih =>
    intro R h
    unfold relInner
    simp only [List.foldl_cons]
    rw [show (rest.foldl (fun R2 t2 => if t1 ≠ t2 then relAdd R2 t1 t2 else R2)
      (if t1 ≠ t2 then relAdd R t1 t2 else R))
      = relInner (if t1 ≠ t2 then relAdd R t1 t2 else R) t1 rest from rfl]
    apply ih
    by_cases hne : t1 ≠ t2
    · rw [if_pos hne]
      exact relNodup_relAdd R t1 t2 h
    · rw [if_neg hne]
      exact h

theorem relNodup_relAddGroup (R : List (String × List String)) (ts : List String)
    (h : relNodup R) : relNodup (relAddGroup R ts) := by
  rw [relAddGroup_eq_foldl]
  have hgen : ∀ (l : List String) (R : List (String × List String)), relNodup R →
      relNodup (l.foldl (fun R1 t1 => relInner (relEnsure R1 t1) t1 ts) R) := by
    intro l
    induction l with
    | nil => intro R h; exact h
    | cons t1 rest ih =>
      intro R h
      simp only [List.foldl_cons]
      exact ih _ (relNodup_relInner t1 ts _ (relNodup_relEnsure R t1 h))
  exact hgen ts R h

theorem relNodup_typeRelationsOf (occs : List PIIOccurrence) :
    relNodup (typeRelationsOf occs) := by
  unfold typeRelationsOf
  have hseed : relNodup (occs.foldl (fun R occ => relEnsure R occ.candidate.pii_type) []) := by
    have hgen : ∀ (l : List PIIOccurrence) (R : List (String × List String)), relNodup R →
        relNodup (l.foldl (fun R occ => relEnsure R occ.candidate.pii_type) R) := by
      intro l
      induction l with
      | nil => intro R h; exact h
      | cons occ rest ih =>
        intro R h
        simp only [List.foldl_cons]
        exact ih _ (relNodup_relEnsure R occ.candidate.pii_type h)
    apply hgen occs []
    intro u
    simp [mapGet]
  have hgen2 : ∀ (l : List (String × ValueGroup)) (R : List (String × List String)),
      relNodup R → relNodup (l.foldl (fun R kg =>
        if 1 < kg.2.pii_types.length then relAddGroup R kg.2.pii_types else R) R) := by
    intro l
    induction l with
    | nil => intro R h; exact h
    | cons kg rest ih =>
      intro R h
      simp only [List.foldl_cons]
      apply ih
      by_cases hlen : 1 < kg.2.pii_types.length
      · rw [if_pos hlen]
        exact relNodup_relAddGroup R kg.2.pii_types h
      · rw [if_neg hlen]
        exact h
  exact hgen2 _ _ hseed

theorem groupByType_keys_nodup (occs : List PIIOccurrence) (o : ResolutionOptions) :
    (mapKeys (groupByType occs o)).Nodup := by
  unfold groupByType mapKeys
  rw [List.map_map]
  have heq : (Prod.fst ∘ fun kg : String × TypeGroup =>
      (kg.1, { kg.2 with
        unique_value_count := kg.2.values.length,
        is_ambiguous := decide (1 < kg.2.values.length)
          || decide (0 < kg.2.confidence_breakdown.medium)
          || decide (0 < kg.2.confidence_breakdown.low),
        has_value_conflict := decide (1 < kg.2.values.length) })) = Prod.fst := by
    funext kg
    rfl
  rw [heq]
  exact foldl_typeStep_keys_nodup o occs [] (by simp [mapKeys])

/-- With duplicate-free type-group keys, the schema is the entry-wise image
of the type groups. -/
theorem buildUnifiedSchema_eq_map (occs : List PIIOccurrence)
    (tgs : List (String × TypeGroup)) (hnd : (mapKeys tgs).Nodup) :
    buildUnifiedSchema occs tgs
      = tgs.map (fun kg => (kg.1, mkSchemaEntry occs kg.1 kg.2)) := by
  have hgen : ∀ (l : List (String × TypeGroup)) (sch : List (String × UnifiedPIIType)),
      (mapKeys l).Nodup → (∀ k, k ∈ mapKeys l → mapGet sch k = none) →
      l.foldl (fun sch kg => mapSet sch kg.1 (mkSchemaEntry occs kg.1 kg.2)) sch
        = sch ++ l.map (fun kg => (kg.1, mkSchemaEntry occs kg.1 kg.2)) := by
    intro l
    induction l with
    | nil => intro sch _ _; simp
    | cons kg rest ih =>
      intro sch hnd2 hfresh
      simp only [List.foldl_cons, List.map_cons]
      rw [mapSet_eq_append_of_isNone sch kg.1 _
        (hfresh kg.1 (by simp [mapKeys]))]
      rw [ih (sch ++ [(kg.1, mkSchemaEntry occs kg.1 kg.2)]) ?_ ?_]
      · rw [List.append_assoc]
        rfl
      · simp only [mapKeys, List.map_cons, List.nodup_cons] at hnd2
        exact hnd2.2
      · intro k hk
        have hkk : kg.1 ≠ k := by
          simp only [mapKeys, List.map_cons, List.nodup_cons] at hnd2
          intro hcontra
          rw [hcontra] at hnd2
          exact hnd2.1 hk
        rw [mapGet_append]
        rw [hfresh k (by
          simp only [mapKeys, List.map_cons, List.mem_cons]
          exact Or.inr hk)]
        simp [mapGet, hkk]
  unfold buildUnifiedSchema
  rw [hgen tgs [] hnd (by intro k _; rfl)]
  rfl

/-- The one-hop relation of the claim: another label observed together with
`t` on some shared normalized value. -/
def oneHopRelated (occs : List PIIOccurrence) (t s : String) : Prop :=
  s ≠ t ∧ ∃ o1 ∈ occs, ∃ o2 ∈ occs,
    o1.candidate.pii_type = t ∧ o2.candidate.pii_type = s ∧
    normalizeValue o1.candidate.value = normalizeValue o2.candidate.value

instance oneHopRelatedDecidable (occs : List PIIOccurrence) (t s : String) :
    Decidable (oneHopRelated occs t s) := by
  unfold oneHopRelated
  exact inferInstance

theorem relMem_iff_oneHop (occs : List PIIOccurrence) (t s : String) :
    relMem (typeRelationsOf occs) t s ↔ oneHopRelated occs t s := by
  rw [relMem_typeRelationsOf]
  constructor
  · rintro ⟨⟨k, g⟩, hkg, hlen, ht, hs, hne⟩
    obtain ⟨g1, hget1, hpost⟩ := groupByValue_mem occs schemaGroupOptions k g hkg
    have hpt : g.pii_types = g1.pii_types := by rw [hpost]
    rw [hpt] at ht hs
    have hrel := (foldl_valueStep_rel schemaGroupOptions occs).2 k g1 hget1
    obtain ⟨o1, ho1, hk1, ht1⟩ := (hrel t).mp ht
    obtain ⟨o2, ho2, hk2, ht2⟩ := (hrel s).mp hs
    rw [valKey_schemaGroupOptions] at hk1 hk2
    exact ⟨hne, o1, ho1, o2, ho2, ht1, ht2, by rw [hk1, hk2]⟩
  · rintro ⟨hne, o1, ho1, o2, ho2, ht1, ht2, hveq⟩
    have hsome : (mapGet (occs.foldl (valueStep schemaGroupOptions) [])
        (normalizeValue o1.candidate.value)).isSome := by
      rw [(foldl_valueStep_rel schemaGroupOptions occs).1 (normalizeValue o1.candidate.value)]
      exact ⟨o1, ho1, by rw [valKey_schemaGroupOptions]⟩
    obtain ⟨g1, hget1⟩ := Option.isSome_iff_exists.mp hsome
    have hrel := (foldl_valueStep_rel schemaGroupOptions occs).2
      (normalizeValue o1.candidate.value) g1 hget1
    have ht : t ∈ g1.pii_types := (hrel t).mpr
      ⟨o1, ho1, by rw [valKey_schemaGroupOptions], ht1⟩
    have hs : s ∈ g1.pii_types := (hrel s).mpr
      ⟨o2, ho2, by rw [valKey_schemaGroupOptions]; exact hveq.symm, ht2⟩
    have hlen : 1 < g1.pii_types.length := one_lt_length_of_two_mem _ s t hs ht hne
    refine ⟨(normalizeValue o1.candidate.value,
      { g1 with
        is_ambiguous := decide (1 < g1.pii_types.length)
          || decide (0 < g1.confidence_breakdown.medium)
          || decide (0 < g1.confidence_breakdown.low),
        has_type_conflict := decide (1 < g1.pii_types.length) }), ?_, hlen, ht, hs, hne⟩
    unfold groupByValue
    exact List.mem_map.mpr
      ⟨(normalizeValue o1.candidate.value, g1), mapGet_mem _ _ _ hget1, rfl⟩

/-- C2 (amended): a canonical-schema entry lists exactly the one-hop set of
other co-occurring labels when that set has at least two distinct members;
with zero or one related labels the entry degenerates to the singleton of
the type itself, so in particular a single synonym is not linked. -/
theorem unified_schema_variations (occs : List PIIOccurrence) (options : ResolutionOptions)
    (t : String) (e : UnifiedPIIType)
    (hmem : (t, e) ∈ buildUnifiedSchema occs (groupByType occs options)) :
    ((∃ s1 s2, s1 ≠ s2 ∧ oneHopRelated occs t s1 ∧ oneHopRelated occs t s2) →
      (∀ s, s ∈ e.variations ↔ oneHopRelated occs t s) ∧ e.variations.Nodup) ∧
    (¬ (∃ s1 s2, s1 ≠ s2 ∧ oneHopRelated occs t s1 ∧ oneHopRelated occs t s2) →
      e.variations = [t]) := by
  rw [buildUnifiedSchema_eq_map occs _ (groupByType_keys_nodup occs options)] at hmem
  rw [List.mem_map] at hmem
  obtain ⟨⟨k, g⟩, hkg, heq⟩ := hmem
  have hk : k = t := congrArg Prod.fst heq
  subst hk
  have he : e = mkSchemaEntry occs k g := (congrArg Prod.snd heq).symm
  subst he
  have hrelmem : ∀ s, s ∈ (mapGet (typeRelationsOf occs) k).getD []
      ↔ oneHopRelated occs k s := fun s => relMem_iff_oneHop occs k s
  have hrelnd : ((mapGet (typeRelationsOf occs) k).getD []).Nodup :=
    relNodup_typeRelationsOf occs k
  constructor
  · rintro ⟨s1, s2, h12, hr1, hr2⟩
    have hs1 : s1 ∈ (mapGet (typeRelationsOf occs) k).getD [] := (hrelmem s1).mpr hr1
    have hs2 : s2 ∈ (mapGet (typeRelationsOf occs) k).getD [] := (hrelmem s2).mpr hr2
    have hpos : 0 < ((mapGet (typeRelationsOf occs) k).getD []).length :=
      List.length_pos.mpr (List.ne_nil_of_mem hs1)
    have hlen2 : 1 < (sortStrings ((mapGet (typeRelationsOf occs) k).getD [])).length :=
      one_lt_length_of_two_mem _ s1 s2 ((mem_sortStrings _ s1).mpr hs1)
        ((mem_sortStrings _ s2).mpr hs2) h12
    have hvar : (mkSchemaEntry occs k g).variations
        = sortStrings ((mapGet (typeRelationsOf occs) k).getD []) := by
      simp only [mkSchemaEntry]
      rw [if_pos hpos, if_pos hlen2]
    rw [hvar]
    constructor
    · intro s
      rw [mem_sortStrings]
      exact hrelmem s
    · exact nodup_sortStrings _ hrelnd
  · intro hnot
    by_cases hpos : 0 < ((mapGet (typeRelationsOf occs) k).getD []).length
    · have hall : ∀ a ∈ (mapGet (typeRelationsOf occs) k).getD [],
          ∀ b ∈ (mapGet (typeRelationsOf occs) k).getD [], a = b := by
        intro a ha b hb
        by_contra hab
        exact hnot ⟨a, b, hab, (hrelmem a).mp ha, (hrelmem b).mp hb⟩
      have hle1 : ((mapGet (typeRelationsOf occs) k).getD []).length ≤ 1 :=
        length_le_one_of_nodup_allEq _ hrelnd hall
      simp only [mkSchemaEntry]
      rw [if_pos hpos, if_neg]
      rw [length_sortStrings]
      omega
    · simp only [mkSchemaEntry]
      rw [if_neg hpos, if_neg]
      simp

/-- First occurrence of the C2 value, labelled `SSN`. -/
def occC2a : PIIOccurrence :=
  ⟨⟨"123-45-6789", "SSN", Confidence.high, none⟩, "f1", "p1"⟩

/-- Second occurrence of the C2 value, labelled `Social Security Number`. -/
def occC2b : PIIOccurrence :=
  ⟨⟨"123-45-6789", "Social Security Number", Confidence.medium, none⟩, "f2", "p2"⟩

/-- The two-label corpus of the spec scenario. -/
def occsC2 : List PIIOccurrence := [occC2a, occC2b]

/-- The schema entry actually produced for `SSN` on `occsC2`. -/
def wUnified2 : UnifiedPIIType :=
  { canonical_type := "SSN", variations := ["SSN"], total_occurrences := 1,
    unique_values_count := 1, confidence_breakdown := ⟨1, 0, 0⟩, files := ["f1"] }

/-- Counterexample for C2 as stated: when one value is observed under
exactly the two labels `SSN` and `Social Security Number`, the canonical
entry for `SSN` lists only `["SSN"]` — the single co-occurring label is not
linked. -/
theorem unified_schema_counterexample :
    ("SSN", wUnified2) ∈ buildUnifiedSchema occsC2 (groupByType occsC2 defaultOptions) ∧
    oneHopRelated occsC2 "SSN" "Social Security Number" ∧
    "Social Security Number" ∉ wUnified2.variations ∧
    wUnified2.variations = ["SSN"] := by
  refine ⟨by decide, by decide, by decide, rfl⟩

/-- Third label sharing the same normalized value (with extra whitespace). -/
def occC2c : PIIOccurrence :=
  ⟨⟨" 123-45-6789 ", "Tax ID", Confidence.low, none⟩, "f3", "p3"⟩

/-- A three-label corpus where `SSN` has two distinct one-hop neighbours. -/
def occsC3 : List PIIOccurrence := [occC2a, occC2b, occC2c]

/-- The schema entry produced for `SSN` on `occsC3`. -/
def wUnified3 : UnifiedPIIType :=
  { canonical_type := "SSN", variations := ["Social Security Number", "Tax ID"],
    total_occurrences := 1, unique_values_count := 1,
    confidence_breakdown := ⟨1, 0, 0⟩, files := ["f1"] }

/-- Witness for the amended C2: with two distinct one-hop neighbours the
entry for `SSN` lists exactly the one-hop set. -/
theorem unified_schema_variations_witness :
    ("SSN", wUnified3) ∈ buildUnifiedSchema occsC3 (groupByType occsC3 defaultOptions) ∧
    ((∀ s, s ∈ wUnified3.variations ↔ oneHopRelated occsC3 "SSN" s) ∧
      wUnified3.variations.Nodup) :=
  ⟨by decide,
   (unified_schema_variations occsC3 defaultOptions "SSN" wUnified3 (by decide)).1
     ⟨"Social Security Number", "Tax ID", by decide, by decide, by decide⟩⟩

end Pareto
